import Mathlib

/-!
# Verification of the AI music video generator's analysis core

This file gives a shallow embedding, in Lean 4, of the analysis core of the
application: the bounded-concurrency `AnalysisQueue` scheduler
(`services/analysisQueue.ts`), the audio energy segmenter and beat detector
that run inside the audio worker (`services/audioAnalysisWorkerService.ts`),
the motion classifier of the video worker and the request-deduplication logic
(`services/videoAnalysisService.ts`), and the clip lifecycle bookkeeping of
`App.tsx`.  Machine floats are modelled by `ℚ` (`Math.sqrt` by `Rat.sqrt`),
JavaScript arrays by `List`, and the single-threaded event-loop interleavings
by explicit event sequences acting on a state record.
-/

/- ## Bounded concurrency scheduler (`services/analysisQueue.ts`)

The scheduler state.  The fields `maxConcurrent`, `running`, `queue` and
`nextTaskId` mirror the private fields of the `AnalysisQueue` class; waiting
tasks are represented by their numeric ids.  The remaining fields are
history/bookkeeping added for specification purposes only: `dispatched`
records, in order, the ids whose `run` closure was invoked (`taskFn` started),
`completed` the ids whose `taskFn` settled, `cancelledIds` the ids rejected by
a successful `cancel()` and `clearedIds` the ids rejected by `clearPending()`.
-/
structure AnalysisQueue where
  maxConcurrent : Nat
  running : Nat
  queue : List Nat
  nextTaskId : Nat
  dispatched : List Nat
  completed : List Nat
  cancelledIds : List Nat
  clearedIds : List Nat
deriving Repr, DecidableEq

/-- The `next()` loop: `while (running < maxConcurrent && queue.length > 0)`
shift the front task and invoke it (`run()` increments `running`
synchronously before the next loop check).  Returns the final
`(queue, running, dispatched)`. -/
def dispatchAux (maxC : Nat) : List Nat → Nat → List Nat → List Nat × Nat × List Nat
  | [], r, d => ([], r, d)
  | id :: rest, r, d =>
    if r < maxC then dispatchAux maxC rest (r + 1) (d ++ [id])
    else (id :: rest, r, d)

/-- Effect of `this.next()` on the whole scheduler state. -/
def AnalysisQueue.next (s : AnalysisQueue) : AnalysisQueue :=
  let t := dispatchAux s.maxConcurrent s.queue s.running s.dispatched
  { s with queue := t.1, running := t.2.1, dispatched := t.2.2 }

/-- `new AnalysisQueue(maxConcurrent)`: `this.maxConcurrent = Math.max(1, maxConcurrent)`. -/
def AnalysisQueue.new (maxConcurrent : Nat) : AnalysisQueue :=
  { maxConcurrent := max 1 maxConcurrent, running := 0, queue := [], nextTaskId := 0,
    dispatched := [], completed := [], cancelledIds := [], clearedIds := [] }

/-- `push(taskFn)`: assign `id = nextTaskId++`, append the task to the waiting
list, then call `next()`.  The id pushed is `s.nextTaskId`. -/
def AnalysisQueue.push (s : AnalysisQueue) : AnalysisQueue :=
  AnalysisQueue.next
    { s with queue := s.queue ++ [s.nextTaskId], nextTaskId := s.nextTaskId + 1 }

/-- A dispatched task's `taskFn` settles (resolve or reject): the `finally`
block decrements `running` and calls `next()`.  Only a task that has been
dispatched and has not yet completed can settle; other ids leave the state
unchanged (such an event cannot occur in the real system). -/
def AnalysisQueue.complete (s : AnalysisQueue) (id : Nat) : AnalysisQueue :=
  if id ∈ s.dispatched ∧ id ∉ s.completed then
    AnalysisQueue.next
      { s with running := s.running - 1, completed := s.completed ++ [id] }
  else s

/-- `cancel()` of the handle for task `id`: if the task is still in the
waiting list, remove it, reject its promise (recorded in `cancelledIds`) and
return `true`; otherwise return `false` and change nothing. -/
def AnalysisQueue.cancel (s : AnalysisQueue) (id : Nat) : AnalysisQueue × Bool :=
  if id ∈ s.queue then
    ({ s with queue := s.queue.erase id, cancelledIds := s.cancelledIds ++ [id] }, true)
  else (s, false)

/-- `clearPending()`: reject every waiting task and empty the waiting list. -/
def AnalysisQueue.clearPending (s : AnalysisQueue) : AnalysisQueue :=
  { s with queue := [], clearedIds := s.clearedIds ++ s.queue }

/-- The operations clients can interleave on a queue. -/
inductive QEvent
  | push
  | complete (id : Nat)
  | cancel (id : Nat)
  | clearPending
deriving Repr, DecidableEq

def qStep (s : AnalysisQueue) : QEvent → AnalysisQueue
  | .push => s.push
  | .complete id => s.complete id
  | .cancel id => (s.cancel id).1
  | .clearPending => s.clearPending

/-- Run an event sequence from a given state. -/
def runFrom (s : AnalysisQueue) (evs : List QEvent) : AnalysisQueue :=
  evs.foldl qStep s

/-- Run an event sequence on a freshly constructed queue with limit `k`. -/
def runQueue (k : Nat) (evs : List QEvent) : AnalysisQueue :=
  runFrom (AnalysisQueue.new k) evs

example : (runQueue 2 [.push, .push, .push]).dispatched = [0, 1] := by decide
example : (runQueue 2 [.push, .push, .push]).queue = [2] := by decide
example : ((runQueue 2 [.push, .push, .push]).cancel 2).2 = true := by decide
example : (runQueue 2 [.push, .push, .push, .complete 0]).dispatched = [0, 1, 2] := by decide

/- ### Scheduler invariants -/

/-- Invariants of the scheduler state that do not depend on the `next()` loop
having run to quiescence (they survive the intermediate states inside `push`
and `complete`). -/
structure QPre (s : AnalysisQueue) : Prop where
  max_pos : 1 ≤ s.maxConcurrent
  run_le : s.running ≤ s.maxConcurrent
  run_eq : s.running + s.completed.length = s.dispatched.length
  disp_nodup : s.dispatched.Nodup
  comp_nodup : s.completed.Nodup
  comp_sub : ∀ x ∈ s.completed, x ∈ s.dispatched
  queue_sorted : s.queue.Sorted (· < ·)
  disp_sorted : s.dispatched.Sorted (· < ·)
  disp_lt_queue : ∀ x ∈ s.dispatched, ∀ y ∈ s.queue, x < y
  queue_lt_next : ∀ x ∈ s.queue, x < s.nextTaskId
  disp_lt_next : ∀ x ∈ s.dispatched, x < s.nextTaskId
  canc_lt_next : ∀ x ∈ s.cancelledIds, x < s.nextTaskId
  canc_not_queue : ∀ x ∈ s.cancelledIds, x ∉ s.queue
  canc_not_disp : ∀ x ∈ s.cancelledIds, x ∉ s.dispatched
  queue_not_disp : ∀ x ∈ s.queue, x ∉ s.dispatched

/-- Full scheduler invariant: additionally, whenever a task is waiting, all
`maxConcurrent` slots are busy (the `next()` loop is quiescent). -/
structure QInv (s : AnalysisQueue) extends QPre s : Prop where
  full_if_waiting : s.queue ≠ [] → s.running = s.maxConcurrent

/-- Unfolding `dispatchAux`: it splits the waiting list into a dispatched
prefix `t` and a remaining suffix, appends `t` to the dispatch history, adds
`t.length` to the running count, respects the concurrency bound, and stops
only when the bound is reached or the list is exhausted. -/
theorem dispatchAux_spec (maxC : Nat) :
    ∀ (q : List Nat) (r : Nat) (d : List Nat),
      ∃ t, q = t ++ (dispatchAux maxC q r d).1 ∧
        (dispatchAux maxC q r d).2.2 = d ++ t ∧
        (dispatchAux maxC q r d).2.1 = r + t.length ∧
        (r ≤ maxC → (dispatchAux maxC q r d).2.1 ≤ maxC) ∧
        ((dispatchAux maxC q r d).1 ≠ [] → maxC ≤ (dispatchAux maxC q r d).2.1) := by
  intro q
  induction q with
  | nil =>
      intro r d
      exact ⟨[], by simp [dispatchAux], by simp [dispatchAux], by simp [dispatchAux],
        fun h => by simpa [dispatchAux] using h, by simp [dispatchAux]⟩
  | cons id rest ih =>
      intro r d
      by_cases hr : r < maxC
      · obtain ⟨t, hq, hd, hrun, hble, hfull⟩ := ih (r + 1) (d ++ [id])
        refine ⟨id :: t, ?_, ?_, ?_, ?_, ?_⟩
        · simpa [dispatchAux, hr] using hq
        · simpa [dispatchAux, hr] using hd
        · simp only [dispatchAux, if_pos hr]
          rw [hrun]; simp; omega
        · intro _
          simpa [dispatchAux, hr] using hble hr
        · intro hne
          simp only [dispatchAux, if_pos hr] at hne ⊢
          exact hfull hne
      · refine ⟨[], by simp [dispatchAux, hr], by simp [dispatchAux, hr],
          by simp [dispatchAux, hr], fun h => by simpa [dispatchAux, hr] using h, ?_⟩
        intro _
        simp only [dispatchAux, if_neg hr]
        omega

/-- Running `next()` on a state satisfying the weak invariant restores the
full invariant. -/
theorem qInv_next {s : AnalysisQueue} (h : QPre s) : QInv s.next := by
  obtain ⟨t, hq, hd, hrun, hble, hfull⟩ :=
    dispatchAux_spec s.maxConcurrent s.queue s.running s.dispatched
  set res := dispatchAux s.maxConcurrent s.queue s.running s.dispatched with hres
  have hmem_t : ∀ x ∈ t, x ∈ s.queue := fun x hx => by rw [hq]; exact List.mem_append_left _ hx
  have hmem_q : ∀ x ∈ res.1, x ∈ s.queue := fun x hx => by
    rw [hq]; exact List.mem_append_right _ hx
  have hpair : ∀ a ∈ t, ∀ b ∈ res.1, a < b := by
    have := h.queue_sorted
    rw [hq] at this
    exact (List.pairwise_append.mp this).2.2
  have ht_sorted : t.Sorted (· < ·) := by
    have := h.queue_sorted
    rw [hq] at this
    exact this.sublist (List.sublist_append_left t res.1)
  have hq_sorted : res.1.Sorted (· < ·) := by
    have := h.queue_sorted
    rw [hq] at this
    exact this.sublist (List.sublist_append_right t res.1)
  refine ⟨⟨h.max_pos, ?_, ?_, ?_, h.comp_nodup, ?_, hq_sorted, ?_, ?_, ?_, ?_,
    h.canc_lt_next, ?_, ?_, ?_⟩, ?_⟩
  · exact hble h.run_le
  · show res.2.1 + s.completed.length = res.2.2.length
    rw [hrun, hd]
    have := h.run_eq
    simp; omega
  · show res.2.2.Nodup
    rw [hd, List.nodup_append]
    refine ⟨h.disp_nodup, ht_sorted.nodup, fun x hx hx' => ?_⟩
    exact absurd rfl (ne_of_lt (h.disp_lt_queue x hx x (hmem_t x hx')))
  · show ∀ x ∈ s.completed, x ∈ res.2.2
    intro x hx
    rw [hd]; exact List.mem_append_left _ (h.comp_sub x hx)
  · show res.2.2.Sorted (· < ·)
    rw [hd]
    exact List.pairwise_append.mpr
      ⟨h.disp_sorted, ht_sorted, fun x hx y hy => h.disp_lt_queue x hx y (hmem_t y hy)⟩
  · show ∀ x ∈ res.2.2, ∀ y ∈ res.1, x < y
    intro x hx y hy
    rw [hd] at hx
    rcases List.mem_append.mp hx with hx | hx
    · exact h.disp_lt_queue x hx y (hmem_q y hy)
    · exact hpair x hx y hy
  · exact fun x hx => h.queue_lt_next x (hmem_q x hx)
  · show ∀ x ∈ res.2.2, x < s.nextTaskId
    intro x hx
    rw [hd] at hx
    rcases List.mem_append.mp hx with hx | hx
    · exact h.disp_lt_next x hx
    · exact h.queue_lt_next x (hmem_t x hx)
  · exact fun x hx hx' => h.canc_not_queue x hx (hmem_q _ hx')
  · show ∀ x ∈ s.cancelledIds, x ∉ res.2.2
    intro x hx hx'
    rw [hd] at hx'
    rcases List.mem_append.mp hx' with hx' | hx'
    · exact h.canc_not_disp x hx hx'
    · exact h.canc_not_queue x hx (hmem_t x hx')
  · show ∀ x ∈ res.1, x ∉ res.2.2
    intro x hx hx'
    rw [hd] at hx'
    rcases List.mem_append.mp hx' with hx' | hx'
    · exact h.queue_not_disp x (hmem_q x hx) hx'
    · exact absurd rfl (ne_of_lt (hpair x hx' x hx))
  · intro hne
    exact le_antisymm (hble h.run_le) (hfull hne)

theorem qInv_push {s : AnalysisQueue} (h : QInv s) : QInv s.push := by
  apply qInv_next
  have hqlt := h.queue_lt_next
  have hdlt := h.disp_lt_next
  refine ⟨h.max_pos, h.run_le, h.run_eq, h.disp_nodup, h.comp_nodup, h.comp_sub, ?_,
    h.disp_sorted, ?_, ?_, ?_, ?_, ?_, ?_, ?_⟩
  · show (s.queue ++ [s.nextTaskId]).Sorted (· < ·)
    refine List.pairwise_append.mpr ⟨h.queue_sorted, List.pairwise_singleton _ _, ?_⟩
    intro a ha b hb
    rw [List.mem_singleton] at hb
    subst hb
    exact hqlt a ha
  · intro x hx y hy
    rcases List.mem_append.mp hy with hy | hy
    · exact h.disp_lt_queue x hx y hy
    · rw [List.mem_singleton] at hy
      subst hy
      exact hdlt x hx
  · intro x hx
    rcases List.mem_append.mp hx with hx | hx
    · exact lt_trans (hqlt x hx) (Nat.lt_succ_self _)
    · rw [List.mem_singleton] at hx
      subst hx
      exact Nat.lt_succ_self _
  · exact fun x hx => lt_trans (hdlt x hx) (Nat.lt_succ_self _)
  · exact fun x hx => lt_trans (h.canc_lt_next x hx) (Nat.lt_succ_self _)
  · intro x hx hx'
    rcases List.mem_append.mp hx' with hx' | hx'
    · exact h.canc_not_queue x hx hx'
    · rw [List.mem_singleton] at hx'
      subst hx'
      exact absurd rfl (ne_of_lt (h.canc_lt_next _ hx))
  · exact h.canc_not_disp
  · intro x hx hx'
    rcases List.mem_append.mp hx with hx | hx
    · exact h.queue_not_disp x hx hx'
    · rw [List.mem_singleton] at hx
      subst hx
      exact absurd rfl (ne_of_lt (hdlt _ hx'))

theorem qInv_complete {s : AnalysisQueue} (h : QInv s) (id : Nat) :
    QInv (s.complete id) := by
  rw [AnalysisQueue.complete]
  by_cases hg : id ∈ s.dispatched ∧ id ∉ s.completed
  · rw [if_pos hg]
    apply qInv_next
    have hone : 1 ≤ s.running := by
      have hsub : ∀ x ∈ s.completed ++ [id], x ∈ s.dispatched := by
        intro x hx
        rcases List.mem_append.mp hx with hx | hx
        · exact h.comp_sub x hx
        · rw [List.mem_singleton] at hx
          subst hx
          exact hg.1
      have hnd : (s.completed ++ [id]).Nodup := by
        rw [List.nodup_append]
        exact ⟨h.comp_nodup, List.nodup_singleton _,
          fun x hx hx' => hg.2 (by rwa [List.mem_singleton.mp hx'] at hx)⟩
      have h1 := (List.Nodup.subperm hnd hsub).length_le
      have h2 := h.run_eq
      simp at h1
      omega
    refine ⟨h.max_pos, le_trans (Nat.sub_le _ _) h.run_le, ?_, h.disp_nodup, ?_, ?_,
      h.queue_sorted, h.disp_sorted, h.disp_lt_queue, h.queue_lt_next, h.disp_lt_next,
      h.canc_lt_next, h.canc_not_queue, h.canc_not_disp, h.queue_not_disp⟩
    · show s.running - 1 + (s.completed ++ [id]).length = s.dispatched.length
      have := h.run_eq
      simp
      omega
    · show (s.completed ++ [id]).Nodup
      rw [List.nodup_append]
      exact ⟨h.comp_nodup, List.nodup_singleton _,
        fun x hx hx' => hg.2 (by rwa [List.mem_singleton.mp hx'] at hx)⟩
    · intro x hx
      rcases List.mem_append.mp hx with hx | hx
      · exact h.comp_sub x hx
      · rw [List.mem_singleton] at hx
        subst hx
        exact hg.1
  · rw [if_neg hg]
    exact h

theorem qInv_cancel {s : AnalysisQueue} (h : QInv s) (id : Nat) :
    QInv (s.cancel id).1 := by
  rw [AnalysisQueue.cancel]
  by_cases hg : id ∈ s.queue
  · rw [if_pos hg]
    have herase : List.Sublist (s.queue.erase id) s.queue := List.erase_sublist id s.queue
    have hmem : ∀ x ∈ s.queue.erase id, x ∈ s.queue := fun x hx => herase.mem hx
    refine ⟨⟨h.max_pos, h.run_le, h.run_eq, h.disp_nodup, h.comp_nodup, h.comp_sub, ?_,
      h.disp_sorted, ?_, ?_, h.disp_lt_next, ?_, ?_, ?_, ?_⟩, ?_⟩
    · exact h.queue_sorted.sublist herase
    · exact fun x hx y hy => h.disp_lt_queue x hx y (hmem y hy)
    · exact fun x hx => h.queue_lt_next x (hmem x hx)
    · intro x hx
      rcases List.mem_append.mp hx with hx | hx
      · exact h.canc_lt_next x hx
      · rw [List.mem_singleton] at hx
        subst hx
        exact h.queue_lt_next x hg
    · intro x hx hx'
      rcases List.mem_append.mp hx with hx | hx
      · exact h.canc_not_queue x hx (hmem x hx')
      · rw [List.mem_singleton] at hx
        subst hx
        exact h.queue_sorted.nodup.not_mem_erase hx'
    · intro x hx hx'
      rcases List.mem_append.mp hx with hx | hx
      · exact h.canc_not_disp x hx hx'
      · rw [List.mem_singleton] at hx
        subst hx
        exact h.queue_not_disp x hg hx'
    · exact fun x hx => h.queue_not_disp x (hmem x hx)
    · intro hne
      apply h.full_if_waiting
      intro hq
      rw [hq] at hne
      simp [List.erase_nil] at hne
  · rw [if_neg hg]
    exact h

theorem qInv_clearPending {s : AnalysisQueue} (h : QInv s) : QInv s.clearPending := by
  refine ⟨⟨h.max_pos, h.run_le, h.run_eq, h.disp_nodup, h.comp_nodup, h.comp_sub, ?_,
    h.disp_sorted, ?_, ?_, h.disp_lt_next, h.canc_lt_next, ?_, h.canc_not_disp, ?_⟩, ?_⟩
  · exact List.sorted_nil
  · exact fun x _ y hy => absurd hy (List.not_mem_nil y)
  · exact fun x hx => absurd hx (List.not_mem_nil x)
  · exact fun x _ hx => absurd hx (List.not_mem_nil x)
  · exact fun x hx => absurd hx (List.not_mem_nil x)
  · intro hne
    exact absurd rfl hne

theorem qInv_step {s : AnalysisQueue} (h : QInv s) (e : QEvent) : QInv (qStep s e) := by
  cases e with
  | push => exact qInv_push h
  | complete id => exact qInv_complete h id
  | cancel id => exact qInv_cancel h id
  | clearPending => exact qInv_clearPending h

theorem qInv_runFrom {s : AnalysisQueue} (h : QInv s) (evs : List QEvent) :
    QInv (runFrom s evs) := by
  induction evs generalizing s with
  | nil => exact h
  | cons e rest ih => exact ih (qInv_step h e)

theorem qInv_new (k : Nat) : QInv (AnalysisQueue.new k) := by
  refine ⟨⟨le_max_left 1 k, ?_, ?_, ?_, ?_, ?_, ?_, ?_, ?_, ?_, ?_, ?_, ?_, ?_, ?_⟩, ?_⟩ <;>
    simp [AnalysisQueue.new]

theorem qInv_runQueue (k : Nat) (evs : List QEvent) : QInv (runQueue k evs) :=
  qInv_runFrom (qInv_new k) evs

/- ### Theorems about the scheduler -/

theorem maxConcurrent_qStep (s : AnalysisQueue) (e : QEvent) :
    (qStep s e).maxConcurrent = s.maxConcurrent := by
  cases e with
  | push => rfl
  | complete id =>
      simp only [qStep, AnalysisQueue.complete]
      split <;> rfl
  | cancel id =>
      simp only [qStep, AnalysisQueue.cancel]
      split <;> rfl
  | clearPending => rfl

theorem maxConcurrent_runFrom (s : AnalysisQueue) (evs : List QEvent) :
    (runFrom s evs).maxConcurrent = s.maxConcurrent := by
  induction evs generalizing s with
  | nil => rfl
  | cons e rest ih =>
      show (runFrom (qStep s e) rest).maxConcurrent = s.maxConcurrent
      rw [ih, maxConcurrent_qStep]

theorem maxConcurrent_runQueue (k : Nat) (evs : List QEvent) (hk : 1 ≤ k) :
    (runQueue k evs).maxConcurrent = k := by
  rw [runQueue, maxConcurrent_runFrom]
  exact max_eq_right hk

/-- In every invariant state, `running` counts exactly the tasks that have
been dispatched but not yet completed. -/
theorem running_count {s : AnalysisQueue} (h : QInv s) :
    (s.dispatched.filter (fun id => id ∉ s.completed)).length = s.running := by
  have hperm := List.filter_append_perm (fun id => decide (id ∈ s.completed)) s.dispatched
  have hlen := hperm.length_eq
  rw [List.length_append] at hlen
  have hmemperm :
      List.Perm (s.dispatched.filter (fun id => decide (id ∈ s.completed))) s.completed := by
    apply (List.perm_ext_iff_of_nodup (h.disp_nodup.filter _) h.comp_nodup).mpr
    intro a
    simp only [List.mem_filter, decide_eq_true_eq]
    exact ⟨fun ha => ha.2, fun ha => ⟨h.comp_sub a ha, ha⟩⟩
  have hcomplen := hmemperm.length_eq
  have hfe : s.dispatched.filter (fun id => decide (id ∉ s.completed)) =
      s.dispatched.filter (fun x => !(decide (x ∈ s.completed))) := by
    apply List.filter_congr
    intro x _
    simp [decide_not]
  have hrun := h.run_eq
  show (s.dispatched.filter (fun id => decide (id ∉ s.completed))).length = s.running
  rw [hfe]
  omega

/-- C1: however pushes, completions, cancellations and `clearPending` calls
are interleaved on a queue constructed with concurrency limit `k ≥ 1`, the
number of tasks that have been dispatched but not yet completed never exceeds
`k`. -/
theorem analysisQueue_concurrency_bound (k : Nat) (evs : List QEvent) (hk : 1 ≤ k) :
    ((runQueue k evs).dispatched.filter
      (fun id => id ∉ (runQueue k evs).completed)).length ≤ k := by
  have hinv := qInv_runQueue k evs
  rw [running_count hinv]
  have := hinv.run_le
  rwa [maxConcurrent_runQueue k evs hk] at this

theorem analysisQueue_concurrency_bound_witness :
    1 ≤ 2 ∧ ((runQueue 2 [.push, .push, .push]).dispatched.filter
      (fun id => id ∉ (runQueue 2 [.push, .push, .push]).completed)).length ≤ 2 :=
  ⟨by decide, analysisQueue_concurrency_bound 2 [.push, .push, .push] (by decide)⟩

/-- Successful cancellations are never forgotten by later events. -/
theorem cancelled_mono (s : AnalysisQueue) (e : QEvent) (id : Nat)
    (hc : id ∈ s.cancelledIds) : id ∈ (qStep s e).cancelledIds := by
  cases e with
  | push => exact hc
  | complete cid =>
      simp only [qStep, AnalysisQueue.complete]
      split
      · exact hc
      · exact hc
  | cancel cid =>
      simp only [qStep, AnalysisQueue.cancel]
      split
      · exact List.mem_append_left _ hc
      · exact hc
  | clearPending => exact hc

theorem cancelled_runFrom (s : AnalysisQueue) (evs : List QEvent) (id : Nat)
    (hc : id ∈ s.cancelledIds) : id ∈ (runFrom s evs).cancelledIds := by
  induction evs generalizing s with
  | nil => exact hc
  | cons e rest ih => exact ih (qStep s e) (cancelled_mono s e id hc)

/-- C2: cancelling a task that is still waiting succeeds (`cancel()` returns
`true`), its promise is rejected with the cancellation error, and its work
function is never invoked afterwards, whatever events follow; cancelling a
task that is no longer waiting (already dispatched or finished) returns
`false` and leaves the scheduler state completely unchanged, so the task
still runs to completion or natural failure. -/
theorem analysisQueue_cancel_spec (k : Nat) (evs : List QEvent) (id : Nat) :
    (id ∈ (runQueue k evs).queue →
      ((runQueue k evs).cancel id).2 = true ∧
      id ∈ ((runQueue k evs).cancel id).1.cancelledIds ∧
      ∀ evs2 : List QEvent, id ∉ (runFrom ((runQueue k evs).cancel id).1 evs2).dispatched) ∧
    (id ∉ (runQueue k evs).queue → (runQueue k evs).cancel id = (runQueue k evs, false)) := by
  have hinv : QInv (runQueue k evs) := qInv_runQueue k evs
  constructor
  · intro hq
    have h2 : ((runQueue k evs).cancel id).2 = true := by
      rw [AnalysisQueue.cancel, if_pos hq]
    have hc : id ∈ ((runQueue k evs).cancel id).1.cancelledIds := by
      rw [AnalysisQueue.cancel, if_pos hq]
      exact List.mem_append_right _ (List.mem_singleton_self id)
    refine ⟨h2, hc, ?_⟩
    intro evs2
    have hinv' : QInv ((runQueue k evs).cancel id).1 := qInv_cancel hinv id
    have hfin : QInv (runFrom ((runQueue k evs).cancel id).1 evs2) := qInv_runFrom hinv' evs2
    exact hfin.canc_not_disp id (cancelled_runFrom _ evs2 id hc)
  · intro hq
    rw [AnalysisQueue.cancel, if_neg hq]

theorem analysisQueue_cancel_spec_witness :
    1 ∈ (runQueue 1 [.push, .push]).queue ∧
    ((runQueue 1 [.push, .push]).cancel 1).2 = true ∧
    1 ∉ (runFrom ((runQueue 1 [.push, .push]).cancel 1).1 [.complete 0, .push]).dispatched := by
  have h := (analysisQueue_cancel_spec 1 [.push, .push] 1).1 (by decide)
  exact ⟨by decide, h.1, h.2.2 [.complete 0, .push]⟩

/-- C3: dispatch is strict FIFO.  In every reachable state the dispatch
history is sorted in push order, and a task can only be waiting while all
`k` slots are busy (so a waiting task starts only when a slot frees).  The
concrete scenario: five pushes with `k = 2` dispatch only tasks 0 and 1;
tasks 2, 3, 4 wait and are dispatched one per completion, in push order. -/
theorem analysisQueue_fifo (k : Nat) (evs : List QEvent) (hk : 1 ≤ k) :
    (List.Sorted (· < ·) (runQueue k evs).dispatched ∧
      ((runQueue k evs).queue ≠ [] → (runQueue k evs).running = k)) ∧
    (runQueue 2 [.push, .push, .push, .push, .push]).dispatched = [0, 1] ∧
    (runQueue 2 [.push, .push, .push, .push, .push]).queue = [2, 3, 4] ∧
    (runQueue 2 [.push, .push, .push, .push, .push, .complete 0]).dispatched = [0, 1, 2] ∧
    (runQueue 2 [.push, .push, .push, .push, .push, .complete 0,
      .complete 2]).dispatched = [0, 1, 2, 3] ∧
    (runQueue 2 [.push, .push, .push, .push, .push, .complete 0, .complete 2,
      .complete 3]).dispatched = [0, 1, 2, 3, 4] := by
  have hinv := qInv_runQueue k evs
  refine ⟨⟨hinv.disp_sorted, fun hne => ?_⟩, by decide, by decide, by decide, by decide, by decide⟩
  have := hinv.full_if_waiting hne
  rwa [maxConcurrent_runQueue k evs hk] at this

theorem analysisQueue_fifo_witness :
    1 ≤ 2 ∧ List.Sorted (· < ·) (runQueue 2 [.push, .push, .push]).dispatched :=
  ⟨by decide, (analysisQueue_fifo 2 [.push, .push, .push] (by decide)).1.1⟩

/- ## Audio energy segmenter (`analyzeEnergy` in the audio worker)

Sample values (Web Audio `Float32Array` floats) are modelled by `ℚ` and
`Math.sqrt` by `Rat.sqrt`; an `AudioBuffer` by its mono channel data plus the
sample rate, with `duration = length / sampleRate`. -/
structure SampleBuffer where
  data : List ℚ
  sampleRate : Nat
deriving Repr, DecidableEq

def SampleBuffer.duration (b : SampleBuffer) : ℚ :=
  (b.data.length : ℚ) / (b.sampleRate : ℚ)

inductive Intensity
  | low
  | medium
  | high
deriving Repr, DecidableEq

structure EnergySegment where
  startTime : ℚ
  endTime : ℚ
  intensity : Intensity
deriving Repr, DecidableEq

/-- Structural worker for `segmentWindows`; the first argument is fuel, which
`segmentWindows` instantiates with the list length (enough for one window per
step, since every step consumes at least one sample when `spS ≥ 1`). -/
def segmentWindowsAux (spS : Nat) : Nat → Nat → List ℚ → List (Nat × List ℚ)
  | 0, _, _ => []
  | _ + 1, _, [] => []
  | fuel + 1, i, x :: xs =>
    (i, (x :: xs).take spS) :: segmentWindowsAux spS fuel (i + spS) (xs.drop (spS - 1))

/-- The window loop `for (let i = 0; i < data.length; i += samplesPerSegment)`:
returns the list of `(i, data.slice(i, min (i + samplesPerSegment) len))`
pairs.  (For the degenerate `spS = 0`, where the JavaScript loop would not
terminate, the fuel bounds the output at one empty window per sample; all
theorems assume a positive sample rate.) -/
def segmentWindows (spS i : Nat) (data : List ℚ) : List (Nat × List ℚ) :=
  segmentWindowsAux spS data.length i data

/-- RMS of one window: `Math.sqrt(sumOfSquares / segment.length)`. -/
def windowRms (w : List ℚ) : ℚ :=
  Rat.sqrt ((w.map (fun x => x * x)).sum / (w.length : ℚ))

/-- `if (energy >= highThreshold) 'high' else if (energy >= lowThreshold)
'medium' else 'low'`. -/
def classifyEnergy (lowThreshold highThreshold energy : ℚ) : Intensity :=
  if highThreshold ≤ energy then .high
  else if lowThreshold ≤ energy then .medium
  else .low

/-- The run-length merge loop over the classified segments: extend
`currentSegment.endTime` while the intensity is unchanged, else emit it. -/
def mergeSegments : EnergySegment → List EnergySegment → List EnergySegment
  | cur, [] => [cur]
  | cur, next :: rest =>
    if next.intensity = cur.intensity then
      mergeSegments { cur with endTime := next.endTime } rest
    else
      cur :: mergeSegments next rest

/-- `analyzeEnergy(buffer)`: 1-second windows, RMS per window, thresholds at
the 33rd/66th percentile indices of the sorted window energies (the float
literals `0.33`, `0.66` are modelled by `33/100`, `66/100`), classification,
then run-length merging.  The ascending numeric `.sort((a, b) => a - b)` is
modelled by insertion sort: on values, every stable ascending sort returns
the same list. -/
def analyzeEnergy (buffer : SampleBuffer) : List EnergySegment :=
  let sampleRate := buffer.sampleRate
  let samplesPerSegment := sampleRate * 1
  let windows := segmentWindows samplesPerSegment 0 buffer.data
  let energyLevels := windows.map (fun w => windowRms w.2)
  let segments : List EnergySegment := windows.map (fun w =>
    { startTime := (w.1 : ℚ) / (sampleRate : ℚ),
      endTime := ((w.1 + w.2.length : Nat) : ℚ) / (sampleRate : ℚ),
      intensity := Intensity.low })
  if energyLevels.length = 0 then [] else
  let sortedEnergy := energyLevels.insertionSort (· ≤ ·)
  let lowThreshold := sortedEnergy.getD (sortedEnergy.length * 33 / 100) 0
  let highThreshold := sortedEnergy.getD (sortedEnergy.length * 66 / 100) 0
  let classifiedSegments := List.zipWith
    (fun seg e => { seg with intensity := classifyEnergy lowThreshold highThreshold e })
    segments energyLevels
  match classifiedSegments with
  | [] => []
  | c :: cs => mergeSegments c cs

/- ### Window decomposition facts -/

theorem segmentWindowsAux_nil (spS fuel i : Nat) :
    segmentWindowsAux spS fuel i [] = [] := by
  cases fuel <;> rfl

/-- Structure of the window list produced by the slicing loop, for a positive
window size: it is nonempty, starts at offset `i` with the first `spS`
samples, consecutive windows are adjacent (`start + length = next start`),
the last window ends exactly at `i + data.length`, and windows only contain
samples of the input. -/
theorem segmentWindowsAux_spec (spS : Nat) (hs : 1 ≤ spS) :
    ∀ (fuel : Nat) (data : List ℚ) (i : Nat), data.length ≤ fuel → data ≠ [] →
      segmentWindowsAux spS fuel i data ≠ [] ∧
      (segmentWindowsAux spS fuel i data).head? = some (i, data.take spS) ∧
      List.Chain' (fun a b => a.1 + a.2.length = b.1) (segmentWindowsAux spS fuel i data) ∧
      (∃ w, (segmentWindowsAux spS fuel i data).getLast? = some w ∧
        w.1 + w.2.length = i + data.length) ∧
      (∀ w ∈ segmentWindowsAux spS fuel i data, ∀ y ∈ w.2, y ∈ data) := by
  intro fuel
  induction fuel with
  | zero =>
      intro data i hlen hne
      cases data with
      | nil => exact absurd rfl hne
      | cons x xs => simp at hlen
  | succ fuel ih =>
      intro data i hlen hne
      cases data with
      | nil => exact absurd rfl hne
      | cons x xs =>
        by_cases hrest : xs.drop (spS - 1) = []
        · have hxs : xs.length ≤ spS - 1 := by
            have := congrArg List.length hrest
            simp [List.length_drop] at this
            omega
          have hres : segmentWindowsAux spS (fuel + 1) i (x :: xs) =
              [(i, (x :: xs).take spS)] := by
            show (i, (x :: xs).take spS) ::
              segmentWindowsAux spS fuel (i + spS) (xs.drop (spS - 1)) = _
            rw [hrest, segmentWindowsAux_nil]
          rw [hres]
          refine ⟨by simp, by simp, List.chain'_singleton _, ⟨(i, (x :: xs).take spS), by simp, ?_⟩, ?_⟩
          · simp only [List.length_take, List.length_cons]
            omega
          · intro w hw y hy
            rw [List.mem_singleton] at hw
            subst hw
            exact List.take_subset _ _ hy
        · have hxslen : spS ≤ xs.length := by
            by_contra hcon
            push_neg at hcon
            apply hrest
            rw [List.drop_eq_nil_iff]
            omega
          have hlen' : (xs.drop (spS - 1)).length ≤ fuel := by
            simp only [List.length_drop]
            simp at hlen
            omega
          obtain ⟨hne', hhead, hchain, ⟨w, hlast, hwlen⟩, hmem⟩ :=
            ih (xs.drop (spS - 1)) (i + spS) hlen' hrest
          have hres : segmentWindowsAux spS (fuel + 1) i (x :: xs) =
              (i, (x :: xs).take spS) ::
                segmentWindowsAux spS fuel (i + spS) (xs.drop (spS - 1)) := rfl
          have htakelen : ((x :: xs).take spS).length = spS := by
            simp only [List.length_take, List.length_cons]
            omega
          rw [hres]
          refine ⟨by simp, by simp, ?_, ⟨w, ?_, ?_⟩, ?_⟩
          · rw [List.chain'_cons']
            refine ⟨?_, hchain⟩
            intro b hb
            rw [hhead] at hb
            simp only [Option.mem_def, Option.some.injEq] at hb
            subst hb
            rw [htakelen]
          · cases hsw : segmentWindowsAux spS fuel (i + spS) (xs.drop (spS - 1)) with
            | nil => exact absurd hsw hne'
            | cons a l =>
                rw [List.getLast?_cons_cons]
                rw [hsw] at hlast
                exact hlast
          · rw [hwlen, List.length_drop, List.length_cons]
            omega
          · intro v hv y hy
            rcases List.mem_cons.mp hv with hv | hv
            · subst hv
              exact List.take_subset _ _ hy
            · have := hmem v hv y hy
              exact List.mem_cons_of_mem x (List.drop_subset _ _ this)

/-- The specification of `segmentWindows` used by the segmenter proofs. -/
theorem segmentWindows_spec (spS : Nat) (hs : 1 ≤ spS) (data : List ℚ) (hne : data ≠ []) :
    segmentWindows spS 0 data ≠ [] ∧
    (segmentWindows spS 0 data).head? = some (0, data.take spS) ∧
    List.Chain' (fun a b => a.1 + a.2.length = b.1) (segmentWindows spS 0 data) ∧
    (∃ w, (segmentWindows spS 0 data).getLast? = some w ∧
      w.1 + w.2.length = data.length) ∧
    (∀ w ∈ segmentWindows spS 0 data, ∀ y ∈ w.2, y ∈ data) := by
  have h := segmentWindowsAux_spec spS hs data.length data 0 le_rfl hne
  simpa [segmentWindows] using h

/- ### Run-length merge facts -/

/-- `mergeSegments` preserves nonemptiness, the first start time, adjacency
of consecutive segments, and the final end time. -/
theorem mergeSegments_spec :
    ∀ (cs : List EnergySegment) (c : EnergySegment),
      List.Chain' (fun s t => s.endTime = t.startTime) (c :: cs) →
      mergeSegments c cs ≠ [] ∧
      ((mergeSegments c cs).map EnergySegment.startTime).head? = some c.startTime ∧
      List.Chain' (fun s t => s.endTime = t.startTime) (mergeSegments c cs) ∧
      ((mergeSegments c cs).map EnergySegment.endTime).getLast? =
        ((c :: cs).map EnergySegment.endTime).getLast? := by
  intro cs
  induction cs with
  | nil =>
      intro c _
      exact ⟨by simp [mergeSegments], by simp [mergeSegments], by simp [mergeSegments],
        by simp [mergeSegments]⟩
  | cons n rest ih =>
      intro c hchain
      rw [List.chain'_cons] at hchain
      obtain ⟨hcn, hchain'⟩ := hchain
      by_cases hint : n.intensity = c.intensity
      · have hres : mergeSegments c (n :: rest) =
            mergeSegments { c with endTime := n.endTime } rest := by
          rw [mergeSegments, if_pos hint]
        have hchain'' :
            List.Chain' (fun s t => s.endTime = t.startTime)
              ({ c with endTime := n.endTime } :: rest) := by
          rw [List.chain'_cons']
          refine ⟨?_, (List.chain'_cons'.mp hchain').2⟩
          intro b hb
          show n.endTime = b.startTime
          exact (List.chain'_cons'.mp hchain').1 b hb
        obtain ⟨h1, h2, h3, h4⟩ := ih { c with endTime := n.endTime } hchain''
        refine ⟨by rw [hres]; exact h1, by rw [hres]; exact h2, by rw [hres]; exact h3, ?_⟩
        rw [hres, h4]
        cases rest with
        | nil => simp
        | cons r rest' => simp
      · have hres : mergeSegments c (n :: rest) = c :: mergeSegments n rest := by
          rw [mergeSegments, if_neg hint]
        obtain ⟨h1, h2, h3, h4⟩ := ih n hchain'
        rw [hres]
        refine ⟨by simp, by simp, ?_, ?_⟩
        · rw [List.chain'_cons']
          refine ⟨?_, h3⟩
          intro b hb
          cases hms : mergeSegments n rest with
          | nil => exact absurd hms h1
          | cons m ms =>
              rw [hms] at hb
              simp only [List.head?_cons, Option.mem_def, Option.some.injEq] at hb
              subst hb
              rw [hms] at h2
              simp only [List.map_cons, List.head?_cons, Option.some.injEq] at h2
              rw [hcn, ← h2]
        · cases hms : mergeSegments n rest with
          | nil => exact absurd hms h1
          | cons m ms =>
              rw [hms] at h4
              simp only [List.map_cons] at h4 ⊢
              rw [List.getLast?_cons_cons, h4]
              exact List.getLast?_cons_cons.symm

/-- If every later segment has the same intensity as the first, the merge
collapses everything into a single segment from the first start time to the
last end time. -/
theorem mergeSegments_const :
    ∀ (cs : List EnergySegment) (c : EnergySegment),
      (∀ s ∈ cs, s.intensity = c.intensity) →
      ∃ e, mergeSegments c cs =
          [{ startTime := c.startTime, endTime := e, intensity := c.intensity }] ∧
        ((c :: cs).map EnergySegment.endTime).getLast? = some e := by
  intro cs
  induction cs with
  | nil =>
      intro c _
      exact ⟨c.endTime, by simp [mergeSegments], by simp⟩
  | cons n rest ih =>
      intro c hall
      have hint : n.intensity = c.intensity := hall n (List.mem_cons_self n rest)
      have hres : mergeSegments c (n :: rest) =
          mergeSegments { c with endTime := n.endTime } rest := by
        rw [mergeSegments, if_pos hint]
      obtain ⟨e, he1, he2⟩ := ih { c with endTime := n.endTime }
        (fun s hs => hall s (List.mem_cons_of_mem n hs))
      refine ⟨e, ?_, ?_⟩
      · rw [hres, he1]
      · cases rest with
        | nil => simpa using he2
        | cons r rest' => simpa using he2

/- ### Classification and assembly -/

theorem zipWith_map_same {α β γ δ : Type} (f : β → γ → δ) (g1 : α → β) (g2 : α → γ)
    (l : List α) :
    List.zipWith f (l.map g1) (l.map g2) = l.map (fun x => f (g1 x) (g2 x)) := by
  induction l with
  | nil => rfl
  | cons a t ih => simp [ih]

/-- Convenience names for the percentile thresholds computed by
`analyzeEnergy` (definitionally the expressions appearing in it). -/
def energyLevelsOf (b : SampleBuffer) : List ℚ :=
  (segmentWindows (b.sampleRate * 1) 0 b.data).map (fun w => windowRms w.2)

def sortedEnergyOf (b : SampleBuffer) : List ℚ :=
  (energyLevelsOf b).insertionSort (· ≤ ·)

def lowThresholdOf (b : SampleBuffer) : ℚ :=
  (sortedEnergyOf b).getD ((sortedEnergyOf b).length * 33 / 100) 0

def highThresholdOf (b : SampleBuffer) : ℚ :=
  (sortedEnergyOf b).getD ((sortedEnergyOf b).length * 66 / 100) 0

/-- `analyzeEnergy` rewritten with the two per-window maps fused into one. -/
theorem analyzeEnergy_eq (b : SampleBuffer) :
    analyzeEnergy b =
      if (energyLevelsOf b).length = 0 then [] else
      match (segmentWindows (b.sampleRate * 1) 0 b.data).map (fun w =>
        ({ startTime := (w.1 : ℚ) / (b.sampleRate : ℚ),
           endTime := ((w.1 + w.2.length : Nat) : ℚ) / (b.sampleRate : ℚ),
           intensity := classifyEnergy (lowThresholdOf b) (highThresholdOf b)
             (windowRms w.2) } : EnergySegment)) with
      | [] => []
      | c :: cs => mergeSegments c cs := by
  simp only [analyzeEnergy, energyLevelsOf, lowThresholdOf, highThresholdOf, sortedEnergyOf]
  rw [zipWith_map_same]

/-- For every intensity assignment `g`, the per-window segments are nonempty,
start at 0, are pairwise adjacent, and end at `data.length / sr`. -/
theorem mapped_windows_facts (sr : Nat) (hsr : 0 < sr) (data : List ℚ) (hd : data ≠ [])
    (g : Nat × List ℚ → Intensity) :
    (segmentWindows (sr * 1) 0 data).map (fun w =>
        ({ startTime := (w.1 : ℚ) / (sr : ℚ),
           endTime := ((w.1 + w.2.length : Nat) : ℚ) / (sr : ℚ),
           intensity := g w } : EnergySegment)) ≠ [] ∧
    (((segmentWindows (sr * 1) 0 data).map (fun w =>
        ({ startTime := (w.1 : ℚ) / (sr : ℚ),
           endTime := ((w.1 + w.2.length : Nat) : ℚ) / (sr : ℚ),
           intensity := g w } : EnergySegment))).map EnergySegment.startTime).head? =
      some 0 ∧
    List.Chain' (fun s t => s.endTime = t.startTime)
      ((segmentWindows (sr * 1) 0 data).map (fun w =>
        ({ startTime := (w.1 : ℚ) / (sr : ℚ),
           endTime := ((w.1 + w.2.length : Nat) : ℚ) / (sr : ℚ),
           intensity := g w } : EnergySegment))) ∧
    (((segmentWindows (sr * 1) 0 data).map (fun w =>
        ({ startTime := (w.1 : ℚ) / (sr : ℚ),
           endTime := ((w.1 + w.2.length : Nat) : ℚ) / (sr : ℚ),
           intensity := g w } : EnergySegment))).map EnergySegment.endTime).getLast? =
      some ((data.length : ℚ) / (sr : ℚ)) := by
  have hs1 : 1 ≤ sr * 1 := by omega
  obtain ⟨hne, hhead, hchain, ⟨w, hlast, hwlen⟩, _⟩ := segmentWindows_spec (sr * 1) hs1 data hd
  refine ⟨?_, ?_, ?_, ?_⟩
  · intro hcon
    exact hne (List.map_eq_nil_iff.mp hcon)
  · rw [List.map_map, List.head?_map, hhead]
    simp
  · rw [List.chain'_map]
    refine List.Chain'.imp ?_ hchain
    intro a b hab
    show ((a.1 + a.2.length : Nat) : ℚ) / (sr : ℚ) = ((b.1 : Nat) : ℚ) / (sr : ℚ)
    rw [hab]
  · rw [List.map_map, List.getLast?_map, hlast]
    simp only [Option.map_some', Function.comp_apply]
    have : ((w.1 + w.2.length : Nat) : ℚ) = (data.length : ℚ) := by
      exact_mod_cast congrArg (fun n : Nat => (n : ℚ)) hwlen
    rw [this]

/-- C6: for every buffer with at least one sample (and a positive sample
rate), the energy segment list is nonempty, its first segment starts at 0,
every segment's end time equals the next segment's start time, and the last
segment's end time equals the buffer duration — no gaps, no overlaps. -/
theorem analyzeEnergy_covers (b : SampleBuffer) (hd : b.data ≠ []) (hr : 0 < b.sampleRate) :
    ((analyzeEnergy b).map EnergySegment.startTime).head? = some 0 ∧
    List.Chain' (fun s t => s.endTime = t.startTime) (analyzeEnergy b) ∧
    ((analyzeEnergy b).map EnergySegment.endTime).getLast? = some b.duration := by
  have hfacts := mapped_windows_facts b.sampleRate hr b.data hd
    (fun w => classifyEnergy (lowThresholdOf b) (highThresholdOf b) (windowRms w.2))
  obtain ⟨hne, hhd, hch, hlast⟩ := hfacts
  have hlen0 : ¬(energyLevelsOf b).length = 0 := by
    simp only [energyLevelsOf, List.length_map]
    intro hcon
    have hwin : segmentWindows (b.sampleRate * 1) 0 b.data = [] :=
      List.length_eq_zero.mp hcon
    exact hne (by rw [hwin]; rfl)
  rw [analyzeEnergy_eq b, if_neg hlen0]
  cases hcl : (segmentWindows (b.sampleRate * 1) 0 b.data).map (fun w =>
      ({ startTime := (w.1 : ℚ) / (b.sampleRate : ℚ),
         endTime := ((w.1 + w.2.length : Nat) : ℚ) / (b.sampleRate : ℚ),
         intensity := classifyEnergy (lowThresholdOf b) (highThresholdOf b)
           (windowRms w.2) } : EnergySegment)) with
  | nil => exact absurd hcl hne
  | cons c cs =>
      rw [hcl] at hhd hch hlast
      obtain ⟨hm1, hm2, hm3, hm4⟩ := mergeSegments_spec cs c hch
      simp only [List.map_cons, List.head?_cons, Option.some.injEq] at hhd
      refine ⟨?_, hm3, ?_⟩
      · rw [hm2, hhd]
      · rw [hm4, hlast]
        rfl

/- ### Silence (C4) -/

theorem windowRms_zero (w : List ℚ) (hw : ∀ x ∈ w, x = 0) : windowRms w = 0 := by
  have hsum : (w.map (fun x => x * x)).sum = 0 := by
    apply List.sum_eq_zero
    intro y hy
    obtain ⟨x, hx, hxy⟩ := List.mem_map.mp hy
    rw [← hxy, hw x hx]
    ring
  rw [windowRms, hsum, zero_div]
  decide

theorem getD_all_zero (l : List ℚ) (h : ∀ x ∈ l, x = 0) (i : Nat) : l.getD i 0 = 0 := by
  induction l generalizing i with
  | nil => simp
  | cons x xs ih =>
      cases i with
      | zero => simpa using h x (List.mem_cons_self x xs)
      | succ j =>
          simp only [List.getD_cons_succ]
          exact ih (fun y hy => h y (List.mem_cons_of_mem x hy)) j

theorem energyLevels_all_zero (b : SampleBuffer) (hr : 0 < b.sampleRate)
    (hz : ∀ x ∈ b.data, x = 0) : ∀ e ∈ energyLevelsOf b, e = 0 := by
  intro e he
  obtain ⟨w, hw, hwe⟩ := List.mem_map.mp he
  rcases List.eq_nil_or_concat b.data with hnil | _
  · rw [hnil] at hw
    simp [segmentWindows, segmentWindowsAux_nil] at hw
  · have hs1 : 1 ≤ b.sampleRate * 1 := by omega
    have hdata : b.data ≠ [] := by
      intro hcon
      rw [hcon] at hw
      simp [segmentWindows, segmentWindowsAux_nil] at hw
    obtain ⟨_, _, _, _, hmem⟩ := segmentWindows_spec (b.sampleRate * 1) hs1 b.data hdata
    rw [← hwe]
    exact windowRms_zero w.2 (fun y hy => hz y (hmem w hw y hy))

theorem thresholds_zero (b : SampleBuffer) (hr : 0 < b.sampleRate)
    (hz : ∀ x ∈ b.data, x = 0) :
    lowThresholdOf b = 0 ∧ highThresholdOf b = 0 := by
  have hall : ∀ e ∈ sortedEnergyOf b, e = 0 := by
    intro e he
    have hperm : List.Perm (sortedEnergyOf b) (energyLevelsOf b) :=
      List.perm_insertionSort _ _
    exact energyLevels_all_zero b hr hz e (hperm.mem_iff.mp he)
  exact ⟨getD_all_zero _ hall _, getD_all_zero _ hall _⟩

theorem classifyEnergy_zero : classifyEnergy 0 0 0 = Intensity.high := by
  rw [classifyEnergy, if_pos le_rfl]

/-- Silence (or any all-zero buffer) collapses to a single segment spanning
the whole duration.  With all window energies equal, both percentile
thresholds are that common value, the `energy >= highThreshold` branch fires
for every window, so the single merged segment has intensity `high`. -/
theorem analyzeEnergy_silent (b : SampleBuffer) (hd : b.data ≠ []) (hr : 0 < b.sampleRate)
    (hz : ∀ x ∈ b.data, x = 0) :
    analyzeEnergy b =
      [{ startTime := 0, endTime := b.duration, intensity := Intensity.high }] := by
  obtain ⟨hlo, hhi⟩ := thresholds_zero b hr hz
  have hfacts := mapped_windows_facts b.sampleRate hr b.data hd
    (fun w => classifyEnergy (lowThresholdOf b) (highThresholdOf b) (windowRms w.2))
  obtain ⟨hne, hhd, hch, hlast⟩ := hfacts
  have hs1 : 1 ≤ b.sampleRate * 1 := by omega
  obtain ⟨_, _, _, _, hmem⟩ := segmentWindows_spec (b.sampleRate * 1) hs1 b.data hd
  have hint : ∀ z ∈ (segmentWindows (b.sampleRate * 1) 0 b.data).map (fun w =>
      ({ startTime := (w.1 : ℚ) / (b.sampleRate : ℚ),
         endTime := ((w.1 + w.2.length : Nat) : ℚ) / (b.sampleRate : ℚ),
         intensity := classifyEnergy (lowThresholdOf b) (highThresholdOf b)
           (windowRms w.2) } : EnergySegment)), z.intensity = Intensity.high := by
    intro z hzmem
    obtain ⟨w, hw, hwz⟩ := List.mem_map.mp hzmem
    rw [← hwz]
    show classifyEnergy (lowThresholdOf b) (highThresholdOf b) (windowRms w.2) = _
    rw [hlo, hhi, windowRms_zero w.2 (fun y hy => hz y (hmem w hw y hy))]
    exact classifyEnergy_zero
  have hlen0 : ¬(energyLevelsOf b).length = 0 := by
    simp only [energyLevelsOf, List.length_map]
    intro hcon
    have hwin : segmentWindows (b.sampleRate * 1) 0 b.data = [] :=
      List.length_eq_zero.mp hcon
    exact hne (by rw [hwin]; rfl)
  rw [analyzeEnergy_eq b, if_neg hlen0]
  cases hcl : (segmentWindows (b.sampleRate * 1) 0 b.data).map (fun w =>
      ({ startTime := (w.1 : ℚ) / (b.sampleRate : ℚ),
         endTime := ((w.1 + w.2.length : Nat) : ℚ) / (b.sampleRate : ℚ),
         intensity := classifyEnergy (lowThresholdOf b) (highThresholdOf b)
           (windowRms w.2) } : EnergySegment)) with
  | nil => exact absurd hcl hne
  | cons c cs =>
      rw [hcl] at hhd hch hlast hint
      obtain ⟨e, he1, he2⟩ := mergeSegments_const cs c
        (fun s hs => by
          rw [hint s (List.mem_cons_of_mem c hs),
            hint c (List.mem_cons_self c cs)])
      show mergeSegments c cs = _
      rw [he1]
      simp only [List.map_cons, List.head?_cons, Option.some.injEq] at hhd
      rw [he2] at hlast
      simp only [Option.some.injEq] at hlast
      rw [hhd, hlast, hint c (List.mem_cons_self c cs)]
      rfl

/-- A concrete silent buffer: 8 zero samples at 4 Hz (2 seconds). -/
def silentBuffer : SampleBuffer :=
  { data := List.replicate 8 0, sampleRate := 4 }

/-- C4 (amended): a buffer of all-zero samples yields exactly one energy
segment spanning the whole duration, and its intensity is `high` (not `low`):
with all window energies equal, `energy >= highThreshold` holds with
equality for every window. -/
theorem analyzeEnergy_silence_high (b : SampleBuffer) (hd : b.data ≠ [])
    (hr : 0 < b.sampleRate) (hz : ∀ x ∈ b.data, x = 0) :
    analyzeEnergy b =
      [{ startTime := 0, endTime := b.duration, intensity := Intensity.high }] :=
  analyzeEnergy_silent b hd hr hz

/-- C4 counterexample: on the concrete silent buffer the single returned
segment spans `[0, 2)` with intensity `high`, refuting the claimed `low`. -/
theorem analyzeEnergy_silence_counterexample :
    analyzeEnergy silentBuffer =
      [{ startTime := 0, endTime := 2, intensity := Intensity.high }] ∧
    Intensity.high ≠ Intensity.low := by
  have hdur : silentBuffer.duration = 2 := by
    rw [SampleBuffer.duration]
    norm_num [silentBuffer]
  have h := analyzeEnergy_silent silentBuffer (by simp [silentBuffer])
    (by norm_num [silentBuffer]) (fun x hx => List.eq_of_mem_replicate hx)
  rw [hdur] at h
  exact ⟨h, by simp⟩

theorem analyzeEnergy_silence_high_witness :
    (silentBuffer.data ≠ [] ∧ 0 < silentBuffer.sampleRate ∧
      ∀ x ∈ silentBuffer.data, x = 0) ∧
    analyzeEnergy silentBuffer =
      [{ startTime := 0, endTime := silentBuffer.duration, intensity := Intensity.high }] :=
  ⟨⟨by decide, by decide, by decide⟩,
    analyzeEnergy_silence_high silentBuffer (by decide) (by decide) (by decide)⟩

theorem analyzeEnergy_covers_witness :
    (silentBuffer.data ≠ [] ∧ 0 < silentBuffer.sampleRate) ∧
    ((analyzeEnergy silentBuffer).map EnergySegment.startTime).head? = some 0 ∧
    List.Chain' (fun s t => s.endTime = t.startTime) (analyzeEnergy silentBuffer) ∧
    ((analyzeEnergy silentBuffer).map EnergySegment.endTime).getLast? =
      some silentBuffer.duration :=
  ⟨⟨by decide, by decide⟩,
    analyzeEnergy_covers silentBuffer (by decide) (by decide)⟩

/- ## Video frame motion classifier
(`calculateMotionFromImageData` in the video worker of
`services/videoAnalysisService.ts`)

An `ImageData` buffer is modelled by its flat RGBA byte list (values 0..255,
alpha included, 4 bytes per pixel); the two compared frames have the same
dimensions, hence byte lists of equal length.  The float literals `0.1`,
`0.03`, `0.005` are modelled by `1/10`, `3/100`, `1/200`. -/

inductive MotionLevel
  | static
  | low
  | medium
  | high
deriving Repr, DecidableEq

/-- The loop `for (let i = 0; i < data1.length; i += 4)` accumulating
`|ΔR| + |ΔG| + |ΔB|` per pixel (the alpha byte is skipped). -/
def motionAbsDiffs : List Nat → List Nat → Nat
  | r1 :: g1 :: b1 :: _ :: rest1, r2 :: g2 :: b2 :: _ :: rest2 =>
    ((r1 : Int) - (r2 : Int)).natAbs + ((g1 : Int) - (g2 : Int)).natAbs +
      ((b1 : Int) - (b2 : Int)).natAbs + motionAbsDiffs rest1 rest2
  | _, _ => 0

/-- `motionScore = diff / (numPixels * 3 * 255)` with
`numPixels = data1.length / 4`. -/
def motionScore (data1 data2 : List Nat) : ℚ :=
  let diff := motionAbsDiffs data1 data2
  let numPixels : ℚ := (data1.length : ℚ) / 4
  let maxDiff : ℚ := numPixels * 3 * 255
  (diff : ℚ) / maxDiff

def calculateMotionFromImageData (data1 data2 : List Nat) : MotionLevel :=
  if (1/10 : ℚ) < motionScore data1 data2 then .high
  else if (3/100 : ℚ) < motionScore data1 data2 then .medium
  else if (1/200 : ℚ) < motionScore data1 data2 then .low
  else .static

/-- A fully black 10×10 RGBA frame and a fully `(31,31,31)` one. -/
def blackFrame : List Nat := (List.replicate 100 [0, 0, 0, 255]).flatten

def grayFrame : List Nat := (List.replicate 100 [31, 31, 31, 255]).flatten

set_option maxRecDepth 4000 in
theorem motionScenario_score : motionScore blackFrame grayFrame = 31 / 255 := by
  have h1 : motionAbsDiffs blackFrame grayFrame = 9300 := by decide
  have h2 : blackFrame.length = 400 := by decide
  simp only [motionScore, h1, h2]
  norm_num

/-- C5 (amended): for the two 10×10 frames, all-black versus all-`(31,31,31)`,
the motion score is `9300 / 76500 = 31/255 ≈ 0.1216` (not `≈ 0.0303`) and the
classified motion level is `high` (not `medium`): the code divides by
`data.length / 4 = 100` pixels, i.e. by the true per-pixel maximum. -/
theorem motionScenario_high :
    motionScore blackFrame grayFrame = 31 / 255 ∧
    calculateMotionFromImageData blackFrame grayFrame = MotionLevel.high := by
  refine ⟨motionScenario_score, ?_⟩
  rw [calculateMotionFromImageData, motionScenario_score]
  norm_num

/-- C5 counterexample: the claimed outcome (`score ≈ 0.0303`, level `medium`)
is false on the code: the score is not `31/1020` (= 0.0303...) and the level
is not `medium`. -/
theorem motionScenario_counterexample :
    calculateMotionFromImageData blackFrame grayFrame ≠ MotionLevel.medium ∧
    motionScore blackFrame grayFrame ≠ 31 / 1020 := by
  constructor
  · rw [calculateMotionFromImageData, motionScenario_score]
    norm_num
    decide
  · rw [motionScenario_score]
    norm_num

/- ## Request deduplication (`analyzeVideoContent` in
`services/videoAnalysisService.ts`)

`runningTasks` is the module-level `Map<string, RunningTask>`, modelled as an
association list from file id to the identity of the stored promise;
`executions` logs, in order, the file ids for which a new analysis task body
was spawned (the async block that extracts frames and posts them to the
worker).  `nextPromiseId` distinguishes promise objects. -/
structure FileMeta where
  name : String
  lastModified : Nat
  size : Nat
deriving Repr, DecidableEq

/-- `` `${file.name}-${file.lastModified}-${file.size}` `` (also the
`ClipIdentity` / `fileId` used by `App.tsx` and the video service). -/
def clipIdentity (f : FileMeta) : String :=
  f.name ++ "-" ++ toString f.lastModified ++ "-" ++ toString f.size

structure VideoSvcState where
  runningTasks : List (String × Nat)
  nextPromiseId : Nat
  executions : List String
deriving Repr, DecidableEq

def VideoSvcState.lookup (s : VideoSvcState) (k : String) : Option Nat :=
  (s.runningTasks.find? (fun p => p.1 = k)).map (fun p => p.2)

/-- `analyzeVideoContent(file)`: if a task for this file id is already in
flight, return its stored promise; otherwise create a fresh promise, store
it in `runningTasks`, spawn the analysis body once, and return it.  The
returned `Nat` identifies the promise handed back to the caller. -/
def analyzeVideoContent (s : VideoSvcState) (f : FileMeta) : Nat × VideoSvcState :=
  let fileId := clipIdentity f
  match s.lookup fileId with
  | some p => (p, s)
  | none =>
    (s.nextPromiseId,
      { runningTasks := s.runningTasks ++ [(fileId, s.nextPromiseId)],
        nextPromiseId := s.nextPromiseId + 1,
        executions := s.executions ++ [fileId] })

/-- A task settles (worker reply, timeout or failure): its entry is removed
from `runningTasks`. -/
def settleTask (s : VideoSvcState) (fileId : String) : VideoSvcState :=
  { s with runningTasks := s.runningTasks.filter (fun p => p.1 ≠ fileId) }

theorem lookup_after_insert (s : VideoSvcState) (k : String) (p : Nat) :
    (VideoSvcState.lookup
      { runningTasks := s.runningTasks ++ [(k, p)],
        nextPromiseId := s.nextPromiseId + 1,
        executions := s.executions ++ [k] } k) = some (VideoSvcState.lookup s k |>.getD p) := by
  rw [VideoSvcState.lookup, VideoSvcState.lookup]
  rw [List.find?_append]
  cases hf : s.runningTasks.find? (fun q => q.1 = k) with
  | none => simp
  | some q =>
      have := List.find?_some hf
      simp at this
      simp [hf]

/-- C10: two `analyzeVideoContent` calls for the same `ClipIdentity` with no
settling in between return the same promise and spawn the underlying
analysis at most once: the second call changes nothing, and if no task for
that identity was in flight before the first call, exactly one new execution
is logged. -/
theorem analyzeVideoContent_dedup (s : VideoSvcState) (f : FileMeta) :
    ((analyzeVideoContent (analyzeVideoContent s f).2 f).1 = (analyzeVideoContent s f).1 ∧
      (analyzeVideoContent (analyzeVideoContent s f).2 f).2 = (analyzeVideoContent s f).2) ∧
    (s.lookup (clipIdentity f) = none →
      (analyzeVideoContent s f).2.executions = s.executions ++ [clipIdentity f]) := by
  constructor
  · cases hl : s.lookup (clipIdentity f) with
    | some p =>
        have h1 : analyzeVideoContent s f = (p, s) := by
          rw [analyzeVideoContent, hl]
        rw [h1]
        have h2 : analyzeVideoContent s f = (p, s) := h1
        constructor <;> rw [analyzeVideoContent, hl]
    | none =>
        have h1 : analyzeVideoContent s f =
            (s.nextPromiseId,
              { runningTasks := s.runningTasks ++ [(clipIdentity f, s.nextPromiseId)],
                nextPromiseId := s.nextPromiseId + 1,
                executions := s.executions ++ [clipIdentity f] }) := by
          rw [analyzeVideoContent, hl]
        rw [h1]
        have h2 := lookup_after_insert s (clipIdentity f) s.nextPromiseId
        rw [hl] at h2
        simp only [Option.getD_none] at h2
        constructor <;> rw [analyzeVideoContent, h2]
  · intro hl
    rw [analyzeVideoContent, hl]

/- ## Audio tempo and beat detector (`analyzeBeats` in the audio worker)

The three band-filtered buffers are produced by an external Web Audio
primitive (`OfflineAudioContext` with biquad filters) and enter the model as
arbitrary sample lists of the same length; everything after the filtering is
pure JavaScript and is embedded below.  Float literals are modelled by the
decimal rationals they denote (`0.5 = 1/2`, `0.8 = 4/5`, `1.2 = 6/5`,
`0.01 = 1/100`, `0.1 = 1/10`, `0.95 = 19/20`, `1.05 = 21/20`). -/

/-- The short-time energy envelope: RMS over frames of `frameSize` samples,
hop `hop`, one frame per loop index `i = k * hop` with
`i < data.length - frameSize`. -/
def energyEnvelope (frameSize hop : Nat) (data : List ℚ) : List ℚ :=
  (List.range ((data.length - frameSize + hop - 1) / hop)).map (fun k =>
    Rat.sqrt ((((data.drop (k * hop)).take frameSize).map (fun x => x * x)).sum /
      (frameSize : ℚ)))

/-- The rectified first difference of the envelope; the ODF starts with the
literal `[0]` the source seeds it with. -/
def getOdf (frameSize hop : Nat) (data : List ℚ) : List ℚ :=
  let env := energyEnvelope frameSize hop data
  0 :: (env.zip env.tail).map (fun p => max 0 (p.2 - p.1))

/-- `combinedOdf[i] = odfLow[i] + odfMid[i] * 0.5 + odfHigh[i] * 0.8` (the
three bands have equal length in the real system). -/
def combineOdfs (odfLow odfMid odfHigh : List ℚ) : List ℚ :=
  List.zipWith (fun l mh => l + mh.1 * (1/2) + mh.2 * (4/5)) odfLow (odfMid.zip odfHigh)

/-- Peak picking: indices `1 ≤ i ≤ length - 2` that are strict local maxima
and exceed the adaptive threshold `localAverage * 1.2 + 0.01` over a window
of `Math.floor(sampleRate / hop / 2)` ODF frames on each side. -/
def pickPeaks (sampleRate hop : Nat) (odf : List ℚ) : List Nat :=
  let w := sampleRate / hop / 2
  (List.range odf.length).filter (fun i =>
    decide (1 ≤ i) && decide (i + 1 < odf.length) &&
    decide (odf.getD (i - 1) 0 < odf.getD i 0) &&
    decide (odf.getD (i + 1) 0 < odf.getD i 0) &&
    (let ws := i - w
     let we := min odf.length (i + w)
     let localSum := ((List.range' ws (we - ws)).map (fun j => odf.getD j 0)).sum
     decide (localSum / ((we - ws : Nat) : ℚ) * (6/5) + 1/100 < odf.getD i 0)))

structure Beat where
  timestamp : ℚ
  confidence : ℚ
deriving Repr, DecidableEq

structure BeatAnalysis where
  bpm : Int
  beats : List Beat
deriving Repr, DecidableEq

/-- One entry of the `tempoBins` object: its key (the first tempo that opened
the bin, recovered by `parseFloat`), its count, and its member tempos. -/
structure TempoBin where
  key : ℚ
  count : Nat
  tempos : List ℚ
deriving Repr, DecidableEq

/-- Join the first bin whose key is within ±5% (`binTempo*0.95 < tempo <
binTempo*1.05`), else open a new bin at the end (insertion order; the
JavaScript engine's special ordering of integer-like keys is immaterial to
the claims proved here). -/
def insertTempo : List TempoBin → ℚ → List TempoBin
  | [], t => [{ key := t, count := 1, tempos := [t] }]
  | b :: bs, t =>
    if b.key * (19/20) < t ∧ t < b.key * (21/20) then
      { b with count := b.count + 1, tempos := b.tempos ++ [t] } :: bs
    else b :: insertTempo bs t

/-- `iois.forEach(ioi => { if (ioi > 0.1) ... })` building the bins from the
instantaneous tempos `60 / ioi`. -/
def buildTempoBins (iois : List ℚ) : List TempoBin :=
  iois.foldl (fun bins ioi => if (1/10 : ℚ) < ioi then insertTempo bins (60 / ioi) else bins) []

/-- `reduce((a, b) => a.count > b.count ? a : b)` over the bins. -/
def dominantBin : TempoBin → List TempoBin → TempoBin
  | a, [] => a
  | a, b :: bs => dominantBin (if b.count < a.count then a else b) bs

theorem ceil_half_toNat_lt (x : ℚ) (hx : 1 < x) : (⌈x / 2⌉).toNat < (⌈x⌉).toNat := by
  have h2 : (2 : Int) ≤ ⌈x⌉ := by
    have h1 : (1 : Int) < ⌈x⌉ := Int.lt_ceil.mpr (by exact_mod_cast hx)
    omega
  have hle : ⌈x / 2⌉ ≤ ⌈x⌉ - 1 := by
    rw [Int.ceil_le]
    push_cast
    have hxc : x ≤ (⌈x⌉ : ℚ) := Int.le_ceil x
    have h2q : (2 : ℚ) ≤ (⌈x⌉ : ℚ) := by exact_mod_cast h2
    linarith
  exact (Int.toNat_lt_toNat (by omega)).mpr (by omega)

/-- `while (bpm < 70) bpm *= 2`.  The loop only terminates for positive
`bpm` (which the pipeline guarantees); the model returns a non-positive
`bpm` unchanged. -/
def octaveUp (bpm : ℚ) : ℚ :=
  if h : 0 < bpm ∧ bpm < 70 then octaveUp (2 * bpm) else bpm
termination_by (⌈(70 : ℚ) / bpm⌉).toNat
decreasing_by
  rw [show (70 : ℚ) / (2 * bpm) = 70 / bpm / 2 by rw [div_div, mul_comm]]
  exact ceil_half_toNat_lt _ ((one_lt_div h.1).mpr h.2)

/-- `while (bpm > 180) bpm /= 2`. -/
def octaveDown (bpm : ℚ) : ℚ :=
  if h : 180 < bpm then octaveDown (bpm / 2) else bpm
termination_by (⌈bpm / 180⌉).toNat
decreasing_by
  rw [show bpm / 2 / 180 = bpm / 180 / 2 by rw [div_div, div_div, mul_comm]]
  exact ceil_half_toNat_lt _ ((one_lt_div (by norm_num)).mpr h)

/-- `Math.round` (on the non-negative values produced here,
`Math.round(x) = ⌊x + 1/2⌋`). -/
def jsRound (q : ℚ) : Int := ⌊q + 1/2⌋

/-- The peak indices of the combined ODF (`frameSize = 1024`, `hop = 256`,
band weights 1.0 / 0.5 / 0.8). -/
def detectPeaks (sampleRate : Nat) (lowData midData highData : List ℚ) : List Nat :=
  pickPeaks sampleRate 256
    (combineOdfs (getOdf 1024 256 lowData) (getOdf 1024 256 midData)
      (getOdf 1024 256 highData))

/-- `analyzeBeats`, from the three filtered band buffers onwards. -/
def analyzeBeats (sampleRate : Nat) (lowData midData highData : List ℚ) : BeatAnalysis :=
  let hopLength := 256
  let peaks := detectPeaks sampleRate lowData midData highData
  let peakTimes := peaks.map (fun i => ((i * hopLength : Nat) : ℚ) / (sampleRate : ℚ))
  if peaks.length < 4 then { bpm := 120, beats := [] } else
  let iois := (peakTimes.zip peakTimes.tail).map (fun p => p.2 - p.1)
  match buildTempoBins iois with
  | [] => { bpm := 120, beats := [] }
  | b :: bs =>
    let dom := dominantBin b bs
    let bpmRaw := dom.tempos.sum / (dom.tempos.length : ℚ)
    { bpm := jsRound (octaveDown (octaveUp bpmRaw)),
      beats := peakTimes.map (fun t => { timestamp := t, confidence := 1 }) }

/- ### BPM range facts -/

theorem octaveUp_ge_aux :
    ∀ (n : Nat) (bpm : ℚ), (⌈(70 : ℚ) / bpm⌉).toNat ≤ n → 0 < bpm → 70 ≤ octaveUp bpm := by
  intro n
  induction n with
  | zero =>
      intro bpm hm hpos
      rw [octaveUp]
      by_cases hc : 0 < bpm ∧ bpm < 70
      · exfalso
        have h1 : (1 : ℚ) < 70 / bpm := (one_lt_div hc.1).mpr hc.2
        have h2 : (1 : Int) < ⌈(70 : ℚ) / bpm⌉ := Int.lt_ceil.mpr (by exact_mod_cast h1)
        omega
      · rw [dif_neg hc]
        push_neg at hc
        exact hc hpos
  | succ n ih =>
      intro bpm hm hpos
      rw [octaveUp]
      by_cases hc : 0 < bpm ∧ bpm < 70
      · rw [dif_pos hc]
        apply ih (2 * bpm) ?_ (by linarith)
        have hdec : (⌈(70 : ℚ) / (2 * bpm)⌉).toNat < (⌈(70 : ℚ) / bpm⌉).toNat := by
          rw [show (70 : ℚ) / (2 * bpm) = 70 / bpm / 2 by rw [div_div, mul_comm]]
          exact ceil_half_toNat_lt _ ((one_lt_div hc.1).mpr hc.2)
        omega
      · rw [dif_neg hc]
        push_neg at hc
        exact hc hpos

theorem octaveUp_ge (bpm : ℚ) (h : 0 < bpm) : 70 ≤ octaveUp bpm :=
  octaveUp_ge_aux _ bpm le_rfl h

theorem octaveDown_le_aux :
    ∀ (n : Nat) (bpm : ℚ), (⌈bpm / 180⌉).toNat ≤ n → octaveDown bpm ≤ 180 := by
  intro n
  induction n with
  | zero =>
      intro bpm hm
      rw [octaveDown]
      by_cases hc : (180 : ℚ) < bpm
      · exfalso
        have h1 : (1 : ℚ) < bpm / 180 := (one_lt_div (by norm_num)).mpr hc
        have h2 : (1 : Int) < ⌈bpm / 180⌉ := Int.lt_ceil.mpr (by exact_mod_cast h1)
        omega
      · rw [dif_neg hc]
        linarith [not_lt.mp hc]
  | succ n ih =>
      intro bpm hm
      rw [octaveDown]
      by_cases hc : (180 : ℚ) < bpm
      · rw [dif_pos hc]
        apply ih (bpm / 2)
        have hdec : (⌈bpm / 2 / 180⌉).toNat < (⌈bpm / 180⌉).toNat := by
          rw [show bpm / 2 / 180 = bpm / 180 / 2 by rw [div_div, div_div, mul_comm]]
          exact ceil_half_toNat_lt _ ((one_lt_div (by norm_num)).mpr hc)
        omega
      · rw [dif_neg hc]
        linarith [not_lt.mp hc]

theorem octaveDown_le (bpm : ℚ) : octaveDown bpm ≤ 180 :=
  octaveDown_le_aux _ bpm le_rfl

theorem octaveDown_ge_aux :
    ∀ (n : Nat) (bpm : ℚ), (⌈bpm / 180⌉).toNat ≤ n → 70 ≤ bpm → 70 ≤ octaveDown bpm := by
  intro n
  induction n with
  | zero =>
      intro bpm hm hge
      rw [octaveDown]
      by_cases hc : (180 : ℚ) < bpm
      · exfalso
        have h1 : (1 : ℚ) < bpm / 180 := (one_lt_div (by norm_num)).mpr hc
        have h2 : (1 : Int) < ⌈bpm / 180⌉ := Int.lt_ceil.mpr (by exact_mod_cast h1)
        omega
      · rw [dif_neg hc]
        exact hge
  | succ n ih =>
      intro bpm hm hge
      rw [octaveDown]
      by_cases hc : (180 : ℚ) < bpm
      · rw [dif_pos hc]
        apply ih (bpm / 2) ?_ (by linarith)
        have hdec : (⌈bpm / 2 / 180⌉).toNat < (⌈bpm / 180⌉).toNat := by
          rw [show bpm / 2 / 180 = bpm / 180 / 2 by rw [div_div, div_div, mul_comm]]
          exact ceil_half_toNat_lt _ ((one_lt_div (by norm_num)).mpr hc)
        omega
      · rw [dif_neg hc]
        exact hge

theorem octaveDown_ge (bpm : ℚ) (h : 70 ≤ bpm) : 70 ≤ octaveDown bpm :=
  octaveDown_ge_aux _ bpm le_rfl h

theorem jsRound_ge (x : ℚ) (h : 70 ≤ x) : (70 : Int) ≤ jsRound x := by
  rw [jsRound, Int.le_floor]
  push_cast
  linarith

theorem jsRound_le (x : ℚ) (h : x ≤ 180) : jsRound x ≤ 180 := by
  have hlt : jsRound x < 181 := by
    rw [jsRound, Int.floor_lt]
    push_cast
    linarith
  omega

/-- The octave-corrected, rounded BPM of any positive raw tempo lies in
`[70, 180]`. -/
theorem bpm_final_range (raw : ℚ) (hraw : 0 < raw) :
    (70 : Int) ≤ jsRound (octaveDown (octaveUp raw)) ∧
      jsRound (octaveDown (octaveUp raw)) ≤ 180 :=
  ⟨jsRound_ge _ (octaveDown_ge _ (octaveUp_ge raw hraw)),
    jsRound_le _ (octaveDown_le _)⟩

/-- Invariant of the tempo histogram: every bin is nonempty and holds only
positive tempos. -/
def BinsPos (bins : List TempoBin) : Prop :=
  ∀ x ∈ bins, x.tempos ≠ [] ∧ ∀ t ∈ x.tempos, 0 < t

theorem insertTempo_pos :
    ∀ (bins : List TempoBin) (t : ℚ), BinsPos bins → 0 < t → BinsPos (insertTempo bins t) := by
  intro bins
  induction bins with
  | nil =>
      intro t _ ht x hx
      rw [insertTempo, List.mem_singleton] at hx
      subst hx
      exact ⟨by simp, fun u hu => by rw [List.mem_singleton.mp hu]; exact ht⟩
  | cons b bs ih =>
      intro t hb ht x hx
      rw [insertTempo] at hx
      by_cases hc : b.key * (19/20) < t ∧ t < b.key * (21/20)
      · rw [if_pos hc] at hx
        rcases List.mem_cons.mp hx with hx | hx
        · subst hx
          refine ⟨by simp, fun u hu => ?_⟩
          rcases List.mem_append.mp hu with hu | hu
          · exact (hb b (List.mem_cons_self b bs)).2 u hu
          · rw [List.mem_singleton.mp hu]; exact ht
        · exact hb x (List.mem_cons_of_mem b hx)
      · rw [if_neg hc] at hx
        rcases List.mem_cons.mp hx with hx | hx
        · subst hx
          exact hb x (List.mem_cons_self x bs)
        · exact ih t (fun y hy => hb y (List.mem_cons_of_mem b hy)) ht x hx

theorem buildTempoBins_pos (iois : List ℚ) : BinsPos (buildTempoBins iois) := by
  rw [buildTempoBins]
  have hgen : ∀ (l : List ℚ) (acc : List TempoBin), BinsPos acc →
      BinsPos (l.foldl (fun bins ioi =>
        if (1/10 : ℚ) < ioi then insertTempo bins (60 / ioi) else bins) acc) := by
    intro l
    induction l with
    | nil => intro acc hacc; exact hacc
    | cons ioi rest ih =>
        intro acc hacc
        show BinsPos (rest.foldl _ (if (1/10 : ℚ) < ioi then insertTempo acc (60 / ioi) else acc))
        by_cases hc : (1/10 : ℚ) < ioi
        · rw [if_pos hc]
          exact ih _ (insertTempo_pos acc _ hacc (by positivity))
        · rw [if_neg hc]
          exact ih _ hacc
  exact hgen iois [] (fun x hx => absurd hx (List.not_mem_nil x))

theorem dominantBin_mem : ∀ (bs : List TempoBin) (a : TempoBin), dominantBin a bs ∈ a :: bs := by
  intro bs
  induction bs with
  | nil => intro a; exact List.mem_singleton_self a
  | cons b bs ih =>
      intro a
      rw [dominantBin]
      have := ih (if b.count < a.count then a else b)
      rcases List.mem_cons.mp this with h | h
      · rw [h]
        by_cases hc : b.count < a.count
        · rw [if_pos hc]; exact List.mem_cons_self a _
        · rw [if_neg hc]; exact List.mem_cons_of_mem a (List.mem_cons_self b bs)
      · exact List.mem_cons_of_mem a (List.mem_cons_of_mem b h)

/-- C8: when the combined onset-detection function yields fewer than 4
peaks, beat analysis returns exactly `bpm = 120` and no beats. -/
theorem analyzeBeats_few_peaks (sampleRate : Nat) (l m h : List ℚ)
    (hp : (detectPeaks sampleRate l m h).length < 4) :
    analyzeBeats sampleRate l m h = { bpm := 120, beats := [] } := by
  simp only [analyzeBeats]
  rw [if_pos hp]

theorem analyzeBeats_few_peaks_witness :
    (detectPeaks 4 [] [] []).length < 4 ∧
    analyzeBeats 4 [] [] [] = { bpm := 120, beats := [] } :=
  ⟨by decide, analyzeBeats_few_peaks 4 [] [] [] (by decide)⟩

/-- C7: on every input, the returned `bpm` is an integer (by construction,
`Math.round` of the octave-corrected cluster average) lying in `[70, 180]`;
both fallback paths return `120`, and on the main path the cluster average
is a positive rational, which doubling below 70 and halving above 180
brings into `[70, 180]` before rounding. -/
theorem analyzeBeats_bpm_range (sampleRate : Nat) (l m h : List ℚ) :
    (70 : Int) ≤ (analyzeBeats sampleRate l m h).bpm ∧
      (analyzeBeats sampleRate l m h).bpm ≤ 180 := by
  simp only [analyzeBeats]
  by_cases hp : (detectPeaks sampleRate l m h).length < 4
  · rw [if_pos hp]
    constructor <;> norm_num
  · rw [if_neg hp]
    split
    · constructor <;> norm_num
    · next b bs hbins =>
        have hpos : BinsPos (b :: bs) := hbins ▸ buildTempoBins_pos _
        have hd := hpos _ (dominantBin_mem bs b)
        have hraw :
            0 < (dominantBin b bs).tempos.sum / ((dominantBin b bs).tempos.length : ℚ) :=
          div_pos (List.sum_pos _ hd.2 hd.1)
            (by exact_mod_cast List.length_pos.mpr hd.1)
        exact bpm_final_range _ hraw

/-- A fresh video-analysis service state and a sample file for the
deduplication witness. -/
def emptyVideoSvc : VideoSvcState :=
  { runningTasks := [], nextPromiseId := 0, executions := [] }

def sampleClip : FileMeta := { name := "clip.mp4", lastModified := 111, size := 222 }

theorem analyzeVideoContent_dedup_witness :
    emptyVideoSvc.lookup (clipIdentity sampleClip) = none ∧
    (analyzeVideoContent (analyzeVideoContent emptyVideoSvc sampleClip).2 sampleClip).1 =
      (analyzeVideoContent emptyVideoSvc sampleClip).1 ∧
    (analyzeVideoContent emptyVideoSvc sampleClip).2.executions =
      emptyVideoSvc.executions ++ [clipIdentity sampleClip] :=
  ⟨rfl, (analyzeVideoContent_dedup emptyVideoSvc sampleClip).1.1,
    (analyzeVideoContent_dedup emptyVideoSvc sampleClip).2 rfl⟩

/- ## Clip analysis lifecycle (`App.tsx`)

We track one clip's `analysisStatus` through the handlers of `App.tsx`
(`handleClipsAdded` / `handleRetryAnalysis`, `handleCancelAnalysis`, and the
task body pushed to the `AnalysisQueue(2)`), composed with the scheduler
model.  `status = none` means the clip is not in the library yet; `task`
holds the queue id of the clip's current task (the `cancellableTasks`
entry).  Other clips' tasks appear as `pushOther` / `completeOther` events.
Each step returns the list of `analysisStatus` values assigned to this clip
during the event, in order (one event can assign twice: `handleClipsAdded`
stores the metadata with `'pending'` and, if a slot is free, `push`
dispatches the body synchronously, which immediately sets `'analyzing'`). -/

inductive ClipStatus
  | pending
  | analyzing
  | ready
  | error
deriving Repr, DecidableEq

structure AppState where
  q : AnalysisQueue
  status : Option ClipStatus
  task : Option Nat
deriving Repr, DecidableEq

inductive AEvent
  | addClip
  | cancelClip
  | finishTask (ok : Bool)
  | pushOther
  | completeOther (id : Nat)
deriving Repr, DecidableEq

/-- `new AnalysisQueue(2)` and a clip not yet added. -/
def appInit : AppState := { q := AnalysisQueue.new 2, status := none, task := none }

/-- After a queue operation, if our waiting task was just dispatched, its
body's first statement sets the clip's status to `'analyzing'`. -/
def syncDispatch (s : AppState) (q' : AnalysisQueue) : AppState × List (Option ClipStatus) :=
  match s.task with
  | some id =>
    if id ∈ q'.dispatched ∧ id ∉ s.q.dispatched then
      ({ q := q', status := some .analyzing, task := s.task }, [some .analyzing])
    else ({ s with q := q' }, [])
  | none => ({ s with q := q' }, [])

def appStep (s : AppState) : AEvent → AppState × List (Option ClipStatus)
  | .addClip =>
    if s.status = none ∨ s.status = some .error then
      if s.q.nextTaskId ∈ s.q.push.dispatched then
        ({ q := s.q.push, status := some .analyzing, task := some s.q.nextTaskId },
          [some .pending, some .analyzing])
      else
        ({ q := s.q.push, status := some .pending, task := some s.q.nextTaskId },
          [some .pending])
    else (s, [])
  | .cancelClip =>
    match s.task with
    | some id =>
      if (s.q.cancel id).2 then
        ({ q := (s.q.cancel id).1, status := some .error, task := none }, [some .error])
      else (s, [])
    | none => (s, [])
  | .finishTask ok =>
    match s.task with
    | some id =>
      if id ∈ s.q.dispatched ∧ id ∉ s.q.completed then
        ({ q := s.q.complete id, status := some (if ok then .ready else .error),
           task := none }, [some (if ok then .ready else .error)])
      else (s, [])
    | none => (s, [])
  | .pushOther => syncDispatch s s.q.push
  | .completeOther id =>
    if s.task = some id then (s, []) else syncDispatch s (s.q.complete id)

def runApp : AppState → List AEvent → AppState × List (Option ClipStatus)
  | s, [] => (s, [])
  | s, e :: rest =>
    let r := appStep s e
    let r' := runApp r.1 rest
    (r'.1, r.2 ++ r'.2)

/-- The full history of this clip's `analysisStatus` values, starting before
the first event. -/
def statusTrace (evs : List AEvent) : List (Option ClipStatus) :=
  none :: (runApp appInit evs).2

/- ### Queue operation facts used by the lifecycle proofs -/

theorem next_nextTaskId (s : AnalysisQueue) : s.next.nextTaskId = s.nextTaskId := rfl

theorem next_completed (s : AnalysisQueue) : s.next.completed = s.completed := rfl

theorem next_disp_mono (s : AnalysisQueue) (x : Nat) (hx : x ∈ s.dispatched) :
    x ∈ s.next.dispatched := by
  obtain ⟨t, _, hd, _, _, _⟩ := dispatchAux_spec s.maxConcurrent s.queue s.running s.dispatched
  show x ∈ (dispatchAux s.maxConcurrent s.queue s.running s.dispatched).2.2
  rw [hd]
  exact List.mem_append_left _ hx

theorem next_queue_cases (s : AnalysisQueue) (x : Nat) (hx : x ∈ s.queue) :
    x ∈ s.next.queue ∨ x ∈ s.next.dispatched := by
  obtain ⟨t, hq, hd, _, _, _⟩ := dispatchAux_spec s.maxConcurrent s.queue s.running s.dispatched
  rw [hq] at hx
  rcases List.mem_append.mp hx with hx | hx
  · right
    show x ∈ (dispatchAux s.maxConcurrent s.queue s.running s.dispatched).2.2
    rw [hd]
    exact List.mem_append_right _ hx
  · left
    exact hx

theorem push_nextTaskId (s : AnalysisQueue) : s.push.nextTaskId = s.nextTaskId + 1 := rfl

theorem push_completed (s : AnalysisQueue) : s.push.completed = s.completed := rfl

theorem push_disp_mono (s : AnalysisQueue) (x : Nat) (hx : x ∈ s.dispatched) :
    x ∈ s.push.dispatched :=
  next_disp_mono _ x hx

theorem push_queue_cases (s : AnalysisQueue) (x : Nat) (hx : x ∈ s.queue) :
    x ∈ s.push.queue ∨ x ∈ s.push.dispatched :=
  next_queue_cases _ x (List.mem_append_left _ hx)

theorem push_self_cases (s : AnalysisQueue) :
    s.nextTaskId ∈ s.push.queue ∨ s.nextTaskId ∈ s.push.dispatched :=
  next_queue_cases _ _ (List.mem_append_right _ (List.mem_singleton_self _))

theorem complete_nextTaskId (s : AnalysisQueue) (id : Nat) :
    (s.complete id).nextTaskId = s.nextTaskId := by
  rw [AnalysisQueue.complete]
  split <;> rfl

theorem complete_disp_mono (s : AnalysisQueue) (id : Nat) (x : Nat) (hx : x ∈ s.dispatched) :
    x ∈ (s.complete id).dispatched := by
  rw [AnalysisQueue.complete]
  split
  · exact next_disp_mono _ x hx
  · exact hx

theorem complete_queue_cases (s : AnalysisQueue) (id : Nat) (x : Nat) (hx : x ∈ s.queue) :
    x ∈ (s.complete id).queue ∨ x ∈ (s.complete id).dispatched := by
  rw [AnalysisQueue.complete]
  split
  · exact next_queue_cases _ x hx
  · exact Or.inl hx

theorem complete_not_completed (s : AnalysisQueue) (id : Nat) (x : Nat)
    (hx : x ∉ s.completed) (hne : x ≠ id) : x ∉ (s.complete id).completed := by
  rw [AnalysisQueue.complete]
  split
  · show x ∉ (s.completed ++ [id])
    intro hmem
    rcases List.mem_append.mp hmem with hmem | hmem
    · exact hx hmem
    · exact hne (List.mem_singleton.mp hmem)
  · exact hx

theorem cancel_true_iff (s : AnalysisQueue) (id : Nat) :
    (s.cancel id).2 = true ↔ id ∈ s.queue := by
  rw [AnalysisQueue.cancel]
  by_cases hc : id ∈ s.queue
  · rw [if_pos hc]
    simpa using hc
  · rw [if_neg hc]
    simpa using hc

/- ### The realized transition relation -/

/-- The status transition relation realized by `App.tsx` (the amended claim):
record creation, (re-)adding or retrying an errored clip, dispatch, task
success, task failure, and the successful cancellation of a still-queued
(hence still `pending`) task. -/
def clipTransition (a b : Option ClipStatus) : Prop :=
  (a = none ∧ b = some ClipStatus.pending) ∨
  (a = some ClipStatus.error ∧ b = some ClipStatus.pending) ∨
  (a = some ClipStatus.pending ∧ b = some ClipStatus.analyzing) ∨
  (a = some ClipStatus.analyzing ∧ b = some ClipStatus.ready) ∨
  (a = some ClipStatus.analyzing ∧ b = some ClipStatus.error) ∨
  (a = some ClipStatus.pending ∧ b = some ClipStatus.error)

instance (a b : Option ClipStatus) : Decidable (clipTransition a b) :=
  decidable_of_iff
    ((a = none ∧ b = some ClipStatus.pending) ∨
      (a = some ClipStatus.error ∧ b = some ClipStatus.pending) ∨
      (a = some ClipStatus.pending ∧ b = some ClipStatus.analyzing) ∨
      (a = some ClipStatus.analyzing ∧ b = some ClipStatus.ready) ∨
      (a = some ClipStatus.analyzing ∧ b = some ClipStatus.error) ∨
      (a = some ClipStatus.pending ∧ b = some ClipStatus.error)) Iff.rfl

/-- Modelled from the claim's words: only `pending→analyzing`,
`analyzing→ready`, `analyzing→error` and `error→pending` are supposed to
occur (record creation, which the claim presupposes, is also allowed). -/
def specClipTransition (a b : Option ClipStatus) : Prop :=
  (a = none ∧ b = some ClipStatus.pending) ∨
  (a = some ClipStatus.pending ∧ b = some ClipStatus.analyzing) ∨
  (a = some ClipStatus.analyzing ∧ b = some ClipStatus.ready) ∨
  (a = some ClipStatus.analyzing ∧ b = some ClipStatus.error) ∨
  (a = some ClipStatus.error ∧ b = some ClipStatus.pending)

instance (a b : Option ClipStatus) : Decidable (specClipTransition a b) :=
  decidable_of_iff
    ((a = none ∧ b = some ClipStatus.pending) ∨
      (a = some ClipStatus.pending ∧ b = some ClipStatus.analyzing) ∨
      (a = some ClipStatus.analyzing ∧ b = some ClipStatus.ready) ∨
      (a = some ClipStatus.analyzing ∧ b = some ClipStatus.error) ∨
      (a = some ClipStatus.error ∧ b = some ClipStatus.pending)) Iff.rfl

/-- Lifecycle invariant: the queue invariant holds, the clip's task id is in
range, a waiting task means status `pending`, a dispatched-but-unfinished
task means status `analyzing`, and with no task the clip is absent, `ready`
or `error`. -/
structure AInv (s : AppState) : Prop where
  qinv : QInv s.q
  task_lt : ∀ id, s.task = some id → id < s.q.nextTaskId
  task_state : ∀ id, s.task = some id →
    (id ∈ s.q.queue ∧ s.status = some ClipStatus.pending) ∨
    (id ∈ s.q.dispatched ∧ id ∉ s.q.completed ∧ s.status = some ClipStatus.analyzing)
  no_task : s.task = none →
    s.status = none ∨ s.status = some ClipStatus.ready ∨ s.status = some ClipStatus.error

theorem syncDispatch_spec (s : AppState) (q' : AnalysisQueue) (hinv : AInv s)
    (hq : QInv q')
    (hnext : s.q.nextTaskId ≤ q'.nextTaskId)
    (hdisp : ∀ x ∈ s.q.dispatched, x ∈ q'.dispatched)
    (hqueue : ∀ x ∈ s.q.queue, x ∈ q'.queue ∨ x ∈ q'.dispatched)
    (hcomp : ∀ id, s.task = some id → id ∉ s.q.completed → id ∉ q'.completed) :
    AInv (syncDispatch s q').1 ∧
    List.Chain' clipTransition (s.status :: (syncDispatch s q').2) ∧
    (s.status :: (syncDispatch s q').2).getLast? = some (syncDispatch s q').1.status := by
  cases htask : s.task with
  | none =>
      simp only [syncDispatch, htask]
      refine ⟨⟨hq, ?_, ?_, ?_⟩, List.chain'_singleton _, rfl⟩
      · intro id h
        exact absurd (htask ▸ h) (by simp [htask])
      · intro id h
        exact absurd (htask ▸ h) (by simp [htask])
      · intro _
        exact hinv.no_task htask
  | some id =>
      simp only [syncDispatch, htask]
      have hnotcomp : id ∉ s.q.completed := by
        rcases hinv.task_state id htask with ⟨hqm, _⟩ | ⟨_, hnc, _⟩
        · intro hmem
          exact hinv.qinv.queue_not_disp id hqm (hinv.qinv.comp_sub id hmem)
        · exact hnc
      by_cases hcond : id ∈ q'.dispatched ∧ id ∉ s.q.dispatched
      · rw [if_pos hcond]
        have hstat : s.status = some ClipStatus.pending := by
          rcases hinv.task_state id htask with ⟨_, hst⟩ | ⟨hdm, _, _⟩
          · exact hst
          · exact absurd hdm hcond.2
        refine ⟨⟨hq, ?_, ?_, ?_⟩, ?_, rfl⟩
        · intro id' h
          have hid : id' = id := by
            have h' : some id = some id' := h
            exact (Option.some.inj h').symm
          subst hid
          exact lt_of_lt_of_le (hinv.task_lt id' htask) hnext
        · intro id' h
          have hid : id' = id := by
            have h' : some id = some id' := h
            exact (Option.some.inj h').symm
          subst hid
          exact Or.inr ⟨hcond.1, hcomp id' htask hnotcomp, rfl⟩
        · intro h
          exact absurd (htask ▸ h) (by simp [htask])
        · rw [hstat]
          refine List.chain'_cons.mpr ⟨?_, List.chain'_singleton _⟩
          exact Or.inr (Or.inr (Or.inl ⟨rfl, rfl⟩))
      · rw [if_neg hcond]
        refine ⟨⟨hq, ?_, ?_, ?_⟩, List.chain'_singleton _, rfl⟩
        · intro id' h
          have hid : id' = id := by
            have h' : some id = some id' := h
            exact (Option.some.inj h').symm
          subst hid
          exact lt_of_lt_of_le (hinv.task_lt id' htask) hnext
        · intro id' h
          have hid : id' = id := by
            have h' : some id = some id' := h
            exact (Option.some.inj h').symm
          subst hid
          rcases hinv.task_state id' htask with ⟨hqm, hst⟩ | ⟨hdm, hnc, hst⟩
          · rcases hqueue id' hqm with hq' | hd'
            · exact Or.inl ⟨hq', hst⟩
            · exact absurd ⟨hd', hinv.qinv.queue_not_disp id' hqm⟩ hcond
          · exact Or.inr ⟨hdisp id' hdm, hcomp id' htask hnc, hst⟩
        · intro h
          exact absurd (htask ▸ h) (by simp [htask])

/-- One event preserves the lifecycle invariant, its status assignments
chain along realized transitions from the current status, and the last
element of that chain is the new status. -/
theorem appStep_spec (s : AppState) (e : AEvent) (hinv : AInv s) :
    AInv (appStep s e).1 ∧
    List.Chain' clipTransition (s.status :: (appStep s e).2) ∧
    (s.status :: (appStep s e).2).getLast? = some (appStep s e).1.status := by
  have hstep0 : clipTransition s.status (some ClipStatus.pending) →
      True := fun _ => trivial
  cases e with
  | addClip =>
      simp only [appStep]
      by_cases hg : s.status = none ∨ s.status = some ClipStatus.error
      · have hfirst : clipTransition s.status (some ClipStatus.pending) := by
          rcases hg with hg | hg
          · exact Or.inl ⟨hg, rfl⟩
          · exact Or.inr (Or.inl ⟨hg, rfl⟩)
        have hnotc : s.q.nextTaskId ∉ s.q.push.completed := by
          rw [push_completed]
          intro hmem
          exact absurd rfl
            (ne_of_lt (hinv.qinv.disp_lt_next _ (hinv.qinv.comp_sub _ hmem)))
        rw [if_pos hg]
        by_cases hdisp : s.q.nextTaskId ∈ s.q.push.dispatched
        · rw [if_pos hdisp]
          refine ⟨⟨qInv_push hinv.qinv, ?_, ?_, ?_⟩, ?_, rfl⟩
          · intro id h
            have h' : some s.q.nextTaskId = some id := h
            rw [← Option.some.inj h', push_nextTaskId]
            omega
          · intro id h
            have h' : some s.q.nextTaskId = some id := h
            rw [← Option.some.inj h']
            exact Or.inr ⟨hdisp, hnotc, rfl⟩
          · intro h
            exact absurd h (by simp)
          · exact List.chain'_cons.mpr ⟨hfirst,
              List.chain'_cons.mpr ⟨Or.inr (Or.inr (Or.inl ⟨rfl, rfl⟩)),
                List.chain'_singleton _⟩⟩
        · rw [if_neg hdisp]
          refine ⟨⟨qInv_push hinv.qinv, ?_, ?_, ?_⟩, ?_, rfl⟩
          · intro id h
            have h' : some s.q.nextTaskId = some id := h
            rw [← Option.some.inj h', push_nextTaskId]
            omega
          · intro id h
            have h' : some s.q.nextTaskId = some id := h
            rw [← Option.some.inj h']
            rcases push_self_cases s.q with hq | hd
            · exact Or.inl ⟨hq, rfl⟩
            · exact absurd hd hdisp
          · intro h
            exact absurd h (by simp)
          · exact List.chain'_cons.mpr ⟨hfirst, List.chain'_singleton _⟩
      · rw [if_neg hg]
        exact ⟨hinv, List.chain'_singleton _, rfl⟩
  | cancelClip =>
      simp only [appStep]
      split
      case h_2 => exact ⟨hinv, List.chain'_singleton _, rfl⟩
      case h_1 id htask =>
          by_cases hcan : (s.q.cancel id).2 = true
          · rw [if_pos hcan]
            have hq := (cancel_true_iff s.q id).mp hcan
            have hstat : s.status = some ClipStatus.pending := by
              rcases hinv.task_state id htask with ⟨_, hst⟩ | ⟨hdm, _, _⟩
              · exact hst
              · exact absurd hdm (hinv.qinv.queue_not_disp id hq)
            refine ⟨⟨qInv_cancel hinv.qinv id, ?_, ?_, ?_⟩, ?_, rfl⟩
            · intro id' h
              exact absurd h (by simp)
            · intro id' h
              exact absurd h (by simp)
            · intro _
              exact Or.inr (Or.inr rfl)
            · rw [hstat]
              exact List.chain'_cons.mpr
                ⟨Or.inr (Or.inr (Or.inr (Or.inr (Or.inr ⟨rfl, rfl⟩)))),
                  List.chain'_singleton _⟩
          · rw [if_neg hcan]
            exact ⟨hinv, List.chain'_singleton _, rfl⟩
  | finishTask ok =>
      simp only [appStep]
      split
      case h_2 => exact ⟨hinv, List.chain'_singleton _, rfl⟩
      case h_1 id htask =>
          by_cases hg : id ∈ s.q.dispatched ∧ id ∉ s.q.completed
          · rw [if_pos hg]
            have hstat : s.status = some ClipStatus.analyzing := by
              rcases hinv.task_state id htask with ⟨hqm, _⟩ | ⟨_, _, hst⟩
              · exact absurd hg.1 (hinv.qinv.queue_not_disp id hqm)
              · exact hst
            refine ⟨⟨qInv_complete hinv.qinv id, ?_, ?_, ?_⟩, ?_, rfl⟩
            · intro id' h
              exact absurd h (by simp)
            · intro id' h
              exact absurd h (by simp)
            · intro _
              cases ok
              · exact Or.inr (Or.inr rfl)
              · exact Or.inr (Or.inl rfl)
            · rw [hstat]
              refine List.chain'_cons.mpr ⟨?_, List.chain'_singleton _⟩
              cases ok
              · exact Or.inr (Or.inr (Or.inr (Or.inr (Or.inl ⟨rfl, rfl⟩))))
              · exact Or.inr (Or.inr (Or.inr (Or.inl ⟨rfl, rfl⟩)))
          · rw [if_neg hg]
            exact ⟨hinv, List.chain'_singleton _, rfl⟩
  | pushOther =>
      simp only [appStep]
      refine syncDispatch_spec s s.q.push hinv (qInv_push hinv.qinv) ?_ ?_ ?_ ?_
      · rw [push_nextTaskId]
        omega
      · exact push_disp_mono s.q
      · exact push_queue_cases s.q
      · intro id _ hnc
        rw [push_completed]
        exact hnc
  | completeOther oid =>
      simp only [appStep]
      by_cases hown : s.task = some oid
      · rw [if_pos hown]
        exact ⟨hinv, List.chain'_singleton _, rfl⟩
      · rw [if_neg hown]
        refine syncDispatch_spec s (s.q.complete oid) hinv (qInv_complete hinv.qinv oid)
          ?_ ?_ ?_ ?_
        · rw [complete_nextTaskId]
        · exact complete_disp_mono s.q oid
        · exact complete_queue_cases s.q oid
        · intro id htask hnc
          apply complete_not_completed s.q oid id hnc
          intro heq
          exact hown (heq ▸ htask)

theorem runApp_spec (evs : List AEvent) :
    ∀ s : AppState, AInv s →
      AInv (runApp s evs).1 ∧
      List.Chain' clipTransition (s.status :: (runApp s evs).2) ∧
      (s.status :: (runApp s evs).2).getLast? = some (runApp s evs).1.status := by
  induction evs with
  | nil =>
      intro s h
      exact ⟨h, List.chain'_singleton _, rfl⟩
  | cons e rest ih =>
      intro s h
      obtain ⟨h1, h2, h3⟩ := appStep_spec s e h
      obtain ⟨g1, g2, g3⟩ := ih (appStep s e).1 h1
      have hr : runApp s (e :: rest) =
          ((runApp (appStep s e).1 rest).1,
            (appStep s e).2 ++ (runApp (appStep s e).1 rest).2) := rfl
      rw [hr]
      have hsplit : s.status :: ((appStep s e).2 ++ (runApp (appStep s e).1 rest).2) =
          (s.status :: (appStep s e).2) ++ (runApp (appStep s e).1 rest).2 := rfl
      refine ⟨g1, ?_, ?_⟩
      · rw [hsplit, List.chain'_append]
        refine ⟨h2, g2.tail, ?_⟩
        intro x hx y hy
        rw [h3] at hx
        simp only [Option.mem_def, Option.some.injEq] at hx
        subst hx
        exact (List.chain'_cons'.mp g2).1 y hy
      · rw [hsplit]
        cases htr : (runApp (appStep s e).1 rest).2 with
        | nil =>
            rw [htr] at g3
            simp only [List.getLast?_singleton, Option.some.injEq] at g3
            rw [List.append_nil, h3, g3]
        | cons y ys =>
            rw [List.getLast?_append_of_ne_nil _ (by simp)]
            rw [htr] at g3
            rw [List.getLast?_cons_cons] at g3
            exact g3

theorem appInit_inv : AInv appInit := by
  refine ⟨qInv_new 2, ?_, ?_, fun _ => Or.inl rfl⟩
  · intro id h
    exact absurd h (by simp [appInit])
  · intro id h
    exact absurd h (by simp [appInit])

/-- C9 (amended): along every interleaving of clip additions, retries,
cancellations, dispatches and completions, consecutive values of the clip's
`analysisStatus` move only along the realized transitions — the four claimed
ones (`pending→analyzing`, `analyzing→ready`, `analyzing→error`,
`error→pending`) plus `pending→error`, which occurs exactly when a
still-queued task is successfully cancelled; and a `pending` status is only
ever written by the explicit add/retry handler (`handleClipsAdded`), never
automatically. -/
theorem clipStatus_transitions :
    (∀ evs : List AEvent, List.Chain' clipTransition (statusTrace evs)) ∧
    (∀ (s : AppState) (e : AEvent),
      some ClipStatus.pending ∈ (appStep s e).2 → e = AEvent.addClip) := by
  constructor
  · intro evs
    exact (runApp_spec evs appInit appInit_inv).2.1
  · intro s e hmem
    cases e with
    | addClip => rfl
    | cancelClip =>
        exfalso
        simp only [appStep] at hmem
        split at hmem
        · split at hmem <;> simp at hmem
        · simp at hmem
    | finishTask ok =>
        exfalso
        simp only [appStep] at hmem
        split at hmem
        · split at hmem
          · rcases List.mem_singleton.mp hmem with h
            cases ok <;> simp at h
          · simp at hmem
        · simp at hmem
    | pushOther =>
        exfalso
        simp only [appStep, syncDispatch] at hmem
        split at hmem
        · split at hmem <;> simp at hmem
        · simp at hmem
    | completeOther oid =>
        exfalso
        simp only [appStep, syncDispatch] at hmem
        split at hmem
        · simp at hmem
        · split at hmem
          · split at hmem <;> simp at hmem
          · simp at hmem

/-- C9 counterexample: with the two scheduler slots busy, adding the clip
leaves its task queued with status `pending`; cancelling then succeeds and
sets the status directly to `error`.  The resulting history
`none → pending → error` contains the transition `pending → error`, which
the claim's transition list does not allow. -/
theorem clipStatus_cancel_counterexample :
    statusTrace [.pushOther, .pushOther, .addClip, .cancelClip] =
      [none, some ClipStatus.pending, some ClipStatus.error] ∧
    ¬ List.Chain' specClipTransition
        (statusTrace [.pushOther, .pushOther, .addClip, .cancelClip]) := by
  have h1 : statusTrace [.pushOther, .pushOther, .addClip, .cancelClip] =
      [none, some ClipStatus.pending, some ClipStatus.error] := by decide
  refine ⟨h1, ?_⟩
  intro hch
  rw [h1] at hch
  exact absurd (List.chain'_cons.mp (List.chain'_cons.mp hch).2).1 (by decide)

theorem clipStatus_transitions_witness :
    some ClipStatus.pending ∈ (appStep appInit AEvent.addClip).2 ∧
    AEvent.addClip = AEvent.addClip ∧
    List.Chain' clipTransition (statusTrace [AEvent.addClip]) :=
  ⟨by decide, clipStatus_transitions.2 appInit AEvent.addClip (by decide),
    clipStatus_transitions.1 [AEvent.addClip]⟩
